import Mathlib

/-!
Verification development for the Qiskit-Learn teaching notebooks
(Bernstein-Vazirani, Deutsch-Jozsa, Simon).

The state simulator is embedded shallowly and exactly: a register of
`n + k` qubits (`n` "input" qubits and `k` "output"/ancilla qubits, matching
how the notebooks split their registers) is indexed by pairs of bit
assignments, and a state is an integer-valued amplitude vector.  Amplitudes
are kept unnormalised: each Hadamard gate is applied without its `1/sqrt 2`
factor, and a separate count of Hadamard gates (`hCount`) records the global
scale, so that the physical probability of a basis point is
`(amplitude)^2 / 2 ^ hCount`.  This makes every computation exact and
executable over `ℤ`/`ℚ`, with no floating point and no irrational factors.

Qubit indices in gates are plain naturals, exactly as in the Python source
(`qc.cx(q, n + q)`, `qc.h(q)`, ...); index `q < n` addresses the first
register and `n ≤ q < n + k` addresses the second.
-/

/-- A basis point of an `n + k` qubit register: the bit values of the first
register paired with the bit values of the second register. -/
abbrev QPoint (n k : ℕ) := (Fin n → Bool) × (Fin k → Bool)

/-- An unnormalised state vector: an integer amplitude for every basis point. -/
abbrev QState (n k : ℕ) := QPoint n k → ℤ

/-- The gate alphabet actually used by the notebooks: Hadamard, bit flip,
controlled bit flip and swap, each carrying flat qubit indices exactly as the
Python calls do. -/
inductive Gate where
  | h (q : ℕ)
  | x (q : ℕ)
  | cx (c t : ℕ)
  | swap (a b : ℕ)
deriving DecidableEq, Repr

variable {n k : ℕ}

/-- Read the bit at flat qubit index `q` of a basis point. -/
def getB (p : QPoint n k) (q : ℕ) : Bool :=
  if h : q < n then p.1 ⟨q, h⟩
  else if h2 : q < n + k then p.2 ⟨q - n, by omega⟩
  else false

/-- Write the bit at flat qubit index `q` of a basis point (identity when the
index is out of range). -/
def setB (p : QPoint n k) (q : ℕ) (b : Bool) : QPoint n k :=
  if h : q < n then (Function.update p.1 ⟨q, h⟩ b, p.2)
  else if h2 : q < n + k then (p.1, Function.update p.2 ⟨q - n, by omega⟩ b)
  else p

/-- Flip the bit at flat qubit index `q`. -/
def flipB (q : ℕ) (p : QPoint n k) : QPoint n k :=
  setB p q (!getB p q)

/-- Exchange the bits at flat qubit indices `a` and `b`. -/
def swapB (a b : ℕ) (p : QPoint n k) : QPoint n k :=
  setB (setB p a (getB p b)) b (getB p a)

/-- The basis-point permutation realised by a non-Hadamard gate (`Gate.h` is
mapped to the identity; it is never used through this function). -/
def tauGate : Gate → QPoint n k → QPoint n k
  | .h _ => id
  | .x q => flipB q
  | .cx c t => fun p => if getB p c then flipB t p else p
  | .swap a b => fun p => swapB a b p

/-- Apply one gate to an unnormalised state vector.  `h q` is the Hadamard
matrix without its `1/sqrt 2` normalisation; the other gates act by the
corresponding basis permutation. -/
def applyGate (g : Gate) (v : QState n k) : QState n k :=
  match g with
  | .h q => fun p =>
      v (setB p q false) + (if getB p q then -1 else 1) * v (setB p q true)
  | .x q => fun p => v (flipB q p)
  | .cx c t => fun p => if getB p c then v (flipB t p) else v p
  | .swap a b => fun p => v (swapB a b p)

/-- Apply a gate list in program order. -/
def applyGates (gs : List Gate) (v : QState n k) : QState n k :=
  gs.foldl (fun w g => applyGate g w) v

/-- Whether a gate is a Hadamard (these carry the implicit `1/sqrt 2`). -/
def Gate.isH : Gate → Bool
  | .h _ => true
  | _ => false

/-- Number of Hadamard gates in a circuit; the final state's true amplitudes
are the integer amplitudes divided by `sqrt 2 ^ hCount`. -/
def hCount (gs : List Gate) : ℕ :=
  gs.countP Gate.isH

/-- Whether a gate acts as a basis permutation (everything except Hadamard). -/
def Gate.isPerm : Gate → Prop
  | .h _ => False
  | _ => True

/-- Validity of a gate over `m` qubits: all indices are in range, and a
controlled-NOT has distinct control and target (as Qiskit requires). -/
def Gate.valid (m : ℕ) : Gate → Prop
  | .h q => q < m
  | .x q => q < m
  | .cx c t => c < m ∧ t < m ∧ c ≠ t
  | .swap a b => a < m ∧ b < m

instance (m : ℕ) (g : Gate) : Decidable (Gate.valid m g) := by
  cases g <;> simp only [Gate.valid] <;> infer_instance

instance (g : Gate) : Decidable (Gate.isPerm g) := by
  cases g <;> simp only [Gate.isPerm] <;> infer_instance

/-- The basis state concentrated at one basis point. -/
def basisState (p0 : QPoint n k) : QState n k :=
  fun p => if p = p0 then 1 else 0

/-- The all-false bit assignment. -/
def zeroV (n : ℕ) : Fin n → Bool := fun _ => false

/-- The all-true bit assignment. -/
def onesV (n : ℕ) : Fin n → Bool := fun _ => true

/-- Pointwise XOR of bit assignments. -/
def xorF (a b : Fin n → Bool) : Fin n → Bool := fun i => xor (a i) (b i)

/-- Sum of squared (unnormalised) amplitudes. -/
def norm2 (v : QState n k) : ℤ :=
  ∑ p : QPoint n k, (v p) ^ 2

/-- Physical probability, in exact rational arithmetic, that measuring the
first register (qubits `0..n-1`, as the notebooks do with
`qc.measure(q, q)` for `q in range(n)`) after running circuit `gs` from the
initial basis point `p0` yields the bit assignment `z`. -/
def outcomeProb (gs : List Gate) (p0 : QPoint n k) (z : Fin n → Bool) : ℚ :=
  ((∑ y : Fin k → Bool, (applyGates gs (basisState p0) (z, y)) ^ 2 : ℤ) : ℚ)
    / 2 ^ hCount gs

/-- Total probability weight of a state reached after `j` Hadamard gates. -/
def probWeight (v : QState n k) (j : ℕ) : ℚ :=
  ((norm2 v : ℤ) : ℚ) / 2 ^ j

/-- A layer of Hadamard gates on qubits `0, 1, ..., j-1`, as produced by the
notebooks' `for q in range(n): qc.h(q)` loops. -/
def hLayer (j : ℕ) : List Gate :=
  (List.range j).map Gate.h

/-! ### Arithmetic helpers over `ZMod 2` -/

/-- Embed a bit into `ZMod 2`. -/
def bitZ (b : Bool) : ZMod 2 := if b then 1 else 0

/-- The sign character of `ZMod 2`: `0 ↦ 1`, `1 ↦ -1`. -/
def chi (c : ZMod 2) : ℤ := if c = 0 then 1 else -1

/-- GF(2) dot product of two bit assignments. -/
def dot2 (a b : Fin n → Bool) : ZMod 2 :=
  ∑ i : Fin n, bitZ (a i && b i)

/-- GF(2) parity (Hamming weight mod 2) of a bit assignment. -/
def par2 (a : Fin n → Bool) : ZMod 2 :=
  ∑ i : Fin n, bitZ (a i)

theorem chi_add (a b : ZMod 2) : chi (a + b) = chi a * chi b := by
  revert a b; decide

theorem chi_sq (a : ZMod 2) : chi a * chi a = 1 := by
  revert a; decide

theorem bitZ_xor (a b : Bool) : bitZ (xor a b) = bitZ a + bitZ b := by
  revert a b; decide

/-! ### Component-level descriptions of the primitives -/

theorem getB_fst (x : Fin n → Bool) (y : Fin k → Bool) {q : ℕ} (hq : q < n) :
    getB (x, y) q = x ⟨q, hq⟩ := by
  unfold getB; simp [hq]

theorem getB_snd (x : Fin n → Bool) (y : Fin k → Bool) {q : ℕ}
    (hq1 : n ≤ q) (hq2 : q < n + k) :
    getB (x, y) q = y ⟨q - n, by omega⟩ := by
  unfold getB
  have h : ¬ q < n := by omega
  simp [h, hq2]

theorem setB_fst (x : Fin n → Bool) (y : Fin k → Bool) {q : ℕ} (hq : q < n) (b : Bool) :
    setB (x, y) q b = (Function.update x ⟨q, hq⟩ b, y) := by
  unfold setB; simp [hq]

theorem setB_snd (x : Fin n → Bool) (y : Fin k → Bool) {q : ℕ}
    (hq1 : n ≤ q) (hq2 : q < n + k) (b : Bool) :
    setB (x, y) q b = (x, Function.update y ⟨q - n, by omega⟩ b) := by
  unfold setB
  have h : ¬ q < n := by omega
  simp [h, hq2]

theorem setB_out_of_range (p : QPoint n k) {q : ℕ} (hq : ¬ q < n + k) (b : Bool) :
    setB p q b = p := by
  unfold setB
  have h : ¬ q < n := by omega
  simp [h, hq]

/-- Two basis points agreeing at every flat index are equal. -/
theorem qpoint_ext {p p' : QPoint n k} (h : ∀ q, getB p q = getB p' q) : p = p' := by
  obtain ⟨x, y⟩ := p
  obtain ⟨x', y'⟩ := p'
  have hx : x = x' := by
    funext i
    have := h i.val
    rw [getB_fst x y i.isLt, getB_fst x' y' i.isLt] at this
    exact this
  have hy : y = y' := by
    funext j
    have hj : n + j.val < n + k := by omega
    have := h (n + j.val)
    rw [getB_snd x y (by omega) hj, getB_snd x' y' (by omega) hj] at this
    simpa using this
  rw [hx, hy]

/-! ### Read-after-write facts -/

theorem getB_setB_same (p : QPoint n k) {q : ℕ} (hq : q < n + k) (b : Bool) :
    getB (setB p q b) q = b := by
  obtain ⟨x, y⟩ := p
  by_cases h : q < n
  · rw [setB_fst x y h, getB_fst _ y h, Function.update_same]
  · rw [setB_snd x y (by omega) hq, getB_snd x _ (by omega) hq, Function.update_same]

theorem getB_setB_ne (p : QPoint n k) {q r : ℕ} (hqr : r ≠ q) (b : Bool) :
    getB (setB p q b) r = getB p r := by
  obtain ⟨x, y⟩ := p
  by_cases h : q < n
  · rw [setB_fst x y h]
    by_cases h' : r < n
    · rw [getB_fst _ y h', getB_fst x y h',
        Function.update_noteq (by simp [Fin.ext_iff, hqr])]
    · unfold getB; simp [h']
  · by_cases h2 : q < n + k
    · rw [setB_snd x y (by omega) h2]
      by_cases h' : r < n
      · rw [getB_fst x _ h', getB_fst x y h']
      · by_cases h2' : r < n + k
        · rw [getB_snd x _ (by omega) h2', getB_snd x y (by omega) h2',
            Function.update_noteq (by simp only [ne_eq, Fin.mk.injEq]; omega)]
        · unfold getB; simp [h', h2']
    · rw [setB_out_of_range _ (by omega)]

theorem getB_out_of_range (p : QPoint n k) {q : ℕ} (hq : ¬ q < n + k) :
    getB p q = false := by
  unfold getB
  have h : ¬ q < n := by omega
  simp [h, hq]

theorem getB_flipB (p : QPoint n k) {q : ℕ} (hq : q < n + k) (r : ℕ) :
    getB (flipB q p) r = if r = q then !getB p q else getB p r := by
  simp only [flipB]
  by_cases h : r = q
  · rw [h, if_pos rfl, getB_setB_same p hq]
  · rw [if_neg h, getB_setB_ne p h]

theorem flipB_out_of_range (p : QPoint n k) {q : ℕ} (hq : ¬ q < n + k) :
    flipB q p = p := by
  unfold flipB; rw [setB_out_of_range p hq]

theorem getB_swapB (p : QPoint n k) {a b : ℕ} (ha : a < n + k) (hb : b < n + k) (r : ℕ) :
    getB (swapB a b p) r =
      if r = b then getB p a else if r = a then getB p b else getB p r := by
  unfold swapB
  by_cases hrb : r = b
  · rw [hrb, if_pos rfl, getB_setB_same _ hb]
  · rw [if_neg hrb, getB_setB_ne _ hrb]
    by_cases hra : r = a
    · rw [hra, if_pos rfl, getB_setB_same _ ha]
    · rw [if_neg hra, getB_setB_ne _ hra]

/-! ### The permutation gates are involutions -/

theorem setB_setB_same (p : QPoint n k) (q : ℕ) (b b' : Bool) :
    setB (setB p q b) q b' = setB p q b' := by
  by_cases hq : q < n + k
  · apply qpoint_ext
    intro r
    by_cases h : r = q
    · subst h
      rw [getB_setB_same _ hq, getB_setB_same _ hq]
    · rw [getB_setB_ne _ h, getB_setB_ne _ h, getB_setB_ne _ h]
  · rw [setB_out_of_range _ hq, setB_out_of_range _ hq, setB_out_of_range _ hq]

theorem setB_getB_self (p : QPoint n k) (q : ℕ) :
    setB p q (getB p q) = p := by
  by_cases hq : q < n + k
  · apply qpoint_ext
    intro r
    by_cases h : r = q
    · subst h
      rw [getB_setB_same _ hq]
    · rw [getB_setB_ne _ h]
  · rw [setB_out_of_range _ hq]

theorem flipB_flipB (q : ℕ) (p : QPoint n k) : flipB q (flipB q p) = p := by
  by_cases hq : q < n + k
  · apply qpoint_ext
    intro r
    rw [getB_flipB _ hq]
    by_cases h : r = q
    · subst h
      rw [if_pos rfl, getB_flipB p hq, if_pos rfl, Bool.not_not]
    · rw [if_neg h, getB_flipB p hq, if_neg h]
  · rw [flipB_out_of_range _ hq, flipB_out_of_range _ hq]

theorem swapB_swapB {a b : ℕ} (ha : a < n + k) (hb : b < n + k) (p : QPoint n k) :
    swapB a b (swapB a b p) = p := by
  apply qpoint_ext
  intro r
  rw [getB_swapB _ ha hb, getB_swapB _ ha hb, getB_swapB _ ha hb, getB_swapB _ ha hb]
  by_cases hrb : r = b <;> by_cases hra : r = a <;>
    by_cases hab : a = b <;> simp [hrb, hra, hab]

theorem tauGate_involutive {g : Gate} (hg : Gate.valid (n + k) g) (hp : Gate.isPerm g) :
    ∀ p : QPoint n k, tauGate g (tauGate g p) = p := by
  intro p
  cases g with
  | h q => exact absurd hp (by simp [Gate.isPerm])
  | x q => exact flipB_flipB q p
  | cx c t =>
      obtain ⟨hc, ht, hct⟩ := hg
      simp only [tauGate]
      by_cases h : getB p c
      · rw [if_pos h]
        have h2 : getB (flipB t p) c = getB p c := by
          rw [getB_flipB p ht, if_neg hct]
        rw [h2, if_pos h, flipB_flipB]
      · rw [if_neg h, if_neg h]
  | swap a b =>
      obtain ⟨hab1, hab2⟩ := hg
      exact swapB_swapB hab1 hab2 p

theorem tauGate_bijective {g : Gate} (hg : Gate.valid (n + k) g) (hp : Gate.isPerm g) :
    Function.Bijective (tauGate g : QPoint n k → QPoint n k) :=
  Function.Involutive.bijective (tauGate_involutive hg hp)

/-! ### Structure of `applyGates` -/

theorem applyGates_nil (v : QState n k) : applyGates [] v = v := rfl

theorem applyGates_cons (g : Gate) (gs : List Gate) (v : QState n k) :
    applyGates (g :: gs) v = applyGates gs (applyGate g v) := rfl

theorem applyGates_append (l1 l2 : List Gate) (v : QState n k) :
    applyGates (l1 ++ l2) v = applyGates l2 (applyGates l1 v) := by
  unfold applyGates
  rw [List.foldl_append]

/-- The composite basis-index map of a list of permutation gates: the state
after the list, evaluated at index `p`, reads the initial state at
`idxMap gs p`.  Note the gates written last act first on the index. -/
def idxMap (gs : List Gate) : QPoint n k → QPoint n k :=
  gs.foldr (fun g f => tauGate g ∘ f) id

theorem idxMap_nil : idxMap ([] : List Gate) = (id : QPoint n k → QPoint n k) := rfl

theorem idxMap_cons (g : Gate) (gs : List Gate) :
    (idxMap (g :: gs) : QPoint n k → QPoint n k) = tauGate g ∘ idxMap gs := rfl

theorem idxMap_append (l1 l2 : List Gate) :
    (idxMap (l1 ++ l2) : QPoint n k → QPoint n k) = idxMap l1 ∘ idxMap l2 := by
  induction l1 with
  | nil => rfl
  | cons g t ih =>
      rw [List.cons_append, idxMap_cons, idxMap_cons, ih]
      rfl

theorem applyGate_perm {g : Gate} (hp : Gate.isPerm g) (v : QState n k) :
    applyGate g v = fun p => v (tauGate g p) := by
  cases g with
  | h q => exact absurd hp (by simp [Gate.isPerm])
  | x q => rfl
  | cx c t =>
      funext p
      simp only [applyGate, tauGate]
      by_cases h : getB p c <;> simp [h]
  | swap a b => rfl

theorem applyGates_perm {gs : List Gate} (hp : ∀ g ∈ gs, Gate.isPerm g) (v : QState n k) :
    applyGates gs v = fun p => v (idxMap gs p) := by
  induction gs generalizing v with
  | nil => rfl
  | cons g t ih =>
      rw [applyGates_cons, ih (fun g' hg' => hp g' (List.mem_cons_of_mem _ hg')),
        applyGate_perm (hp g (List.mem_cons_self g t))]
      rfl

/-! ### Norm preservation: permutation gates -/

theorem norm2_comp_bijective {σ : QPoint n k → QPoint n k} (hσ : Function.Bijective σ)
    (v : QState n k) : norm2 (fun p => v (σ p)) = norm2 v := by
  unfold norm2
  exact Fintype.sum_bijective σ hσ _ _ (fun _ => rfl)

theorem norm2_applyGate_perm {g : Gate} (hg : Gate.valid (n + k) g)
    (hp : Gate.isPerm g) (v : QState n k) :
    norm2 (applyGate g v) = norm2 v := by
  rw [applyGate_perm hp]
  exact norm2_comp_bijective (tauGate_bijective hg hp) v

/-! ### Norm doubling: the Hadamard gate -/

theorem sum_comp_bijective {σ : QPoint n k → QPoint n k} (hσ : Function.Bijective σ)
    (f : QPoint n k → ℤ) : ∑ p : QPoint n k, f (σ p) = ∑ p : QPoint n k, f p :=
  Fintype.sum_bijective σ hσ _ _ (fun _ => rfl)

theorem norm2_applyGate_h {q : ℕ} (hq : q < n + k) (v : QState n k) :
    norm2 (applyGate (Gate.h q) v) = 2 * norm2 v := by
  have hbij : Function.Bijective (flipB q : QPoint n k → QPoint n k) :=
    Function.Involutive.bijective (flipB_flipB q)
  set F : QPoint n k → ℤ := fun p => (applyGate (Gate.h q) v p) ^ 2 with hF
  set G : QPoint n k → ℤ := fun p => (v p) ^ 2 with hG
  have key : ∀ p : QPoint n k, F p + F (flipB q p) = 2 * (G p + G (flipB q p)) := by
    intro p
    have hsf : setB (flipB q p) q false = setB p q false := by
      simp only [flipB]; rw [setB_setB_same]
    have hst : setB (flipB q p) q true = setB p q true := by
      simp only [flipB]; rw [setB_setB_same]
    have hgf : getB (flipB q p) q = !getB p q := by
      rw [getB_flipB p hq, if_pos rfl]
    simp only [hF, hG, applyGate, hsf, hst, hgf]
    cases h : getB p q with
    | true =>
        have hp1 : v p = v (setB p q true) := by
          conv_lhs => rw [← setB_getB_self p q]
          rw [h]
        have hp2 : v (flipB q p) = v (setB p q false) := by
          simp only [flipB, h, Bool.not_true]
        rw [hp1, hp2]
        simp only [Bool.not_true, Bool.false_eq_true, reduceIte]
        ring
    | false =>
        have hp1 : v p = v (setB p q false) := by
          conv_lhs => rw [← setB_getB_self p q]
          rw [h]
        have hp2 : v (flipB q p) = v (setB p q true) := by
          simp only [flipB, h, Bool.not_false]
        rw [hp1, hp2]
        simp only [Bool.not_false, Bool.false_eq_true, reduceIte]
        ring
  have hsum : ∑ p : QPoint n k, F p = ∑ p : QPoint n k, F (flipB q p) :=
    (sum_comp_bijective hbij F).symm
  have hsum2 : ∑ p : QPoint n k, G p = ∑ p : QPoint n k, G (flipB q p) :=
    (sum_comp_bijective hbij G).symm
  have hdouble : (2 : ℤ) * ∑ p : QPoint n k, F p
      = 2 * (2 * ∑ p : QPoint n k, G p) := by
    calc (2 : ℤ) * ∑ p : QPoint n k, F p
        = ∑ p : QPoint n k, F p + ∑ p : QPoint n k, F (flipB q p) := by
          rw [← hsum]; ring
      _ = ∑ p : QPoint n k, (F p + F (flipB q p)) := by rw [Finset.sum_add_distrib]
      _ = ∑ p : QPoint n k, 2 * (G p + G (flipB q p)) := by
          exact Finset.sum_congr rfl (fun p _ => key p)
      _ = 2 * ∑ p : QPoint n k, (G p + G (flipB q p)) := by rw [Finset.mul_sum]
      _ = 2 * (∑ p : QPoint n k, G p + ∑ p : QPoint n k, G (flipB q p)) := by
          rw [Finset.sum_add_distrib]
      _ = 2 * (2 * ∑ p : QPoint n k, G p) := by rw [← hsum2]; ring
  have : ∑ p : QPoint n k, F p = 2 * ∑ p : QPoint n k, G p := by linarith
  simpa [norm2, hF, hG] using this

/-! ### Norm evolution along a circuit -/

theorem norm2_applyGates {gs : List Gate} (hv : ∀ g ∈ gs, Gate.valid (n + k) g)
    (v : QState n k) :
    norm2 (applyGates gs v) = 2 ^ hCount gs * norm2 v := by
  induction gs generalizing v with
  | nil => simp [applyGates_nil, hCount]
  | cons g t ih =>
      rw [applyGates_cons, ih (fun g' hg' => hv g' (List.mem_cons_of_mem _ hg'))]
      have hg : Gate.valid (n + k) g := hv g (List.mem_cons_self g t)
      cases g with
      | h q =>
          rw [norm2_applyGate_h hg v]
          have hc : hCount (Gate.h q :: t) = hCount t + 1 := by
            simp [hCount, List.countP_cons, Gate.isH]
          rw [hc, pow_succ]
          ring
      | x q =>
          rw [norm2_applyGate_perm hg (by simp [Gate.isPerm]) v]
          simp [hCount, List.countP_cons, Gate.isH]
      | cx c t' =>
          rw [norm2_applyGate_perm hg (by simp [Gate.isPerm]) v]
          simp [hCount, List.countP_cons, Gate.isH]
      | swap a b =>
          rw [norm2_applyGate_perm hg (by simp [Gate.isPerm]) v]
          simp [hCount, List.countP_cons, Gate.isH]

theorem norm2_basisState (p0 : QPoint n k) : norm2 (basisState p0) = 1 := by
  unfold norm2 basisState
  rw [Finset.sum_eq_single p0]
  · simp
  · intro b _ hb
    simp [hb]
  · intro h
    exact absurd (Finset.mem_univ p0) h

/-! ### The Hadamard layer on the first register -/

/-- Bit assignments agreeing with `x` at all first-register positions `≥ j`. -/
def belowSet (j : ℕ) (x : Fin n → Bool) : Finset (Fin n → Bool) :=
  Finset.univ.filter (fun u => ∀ i : Fin n, j ≤ i.val → u i = x i)

/-- GF(2) dot product restricted to first-register positions `< j`. -/
def dotBelow (j : ℕ) (u x : Fin n → Bool) : ZMod 2 :=
  ∑ i ∈ Finset.univ.filter (fun i : Fin n => i.val < j), bitZ (u i && x i)

theorem chi_bitZ (c : Bool) : chi (bitZ c) = if c then -1 else 1 := by
  cases c <;> decide

theorem belowSet_zero (x : Fin n → Bool) : belowSet 0 x = {x} := by
  ext u
  simp only [belowSet, Finset.mem_filter, Finset.mem_univ, true_and,
    Finset.mem_singleton]
  constructor
  · intro hu
    funext i
    exact hu i (Nat.zero_le _)
  · intro hu i _
    rw [hu]

theorem dotBelow_zero (u x : Fin n → Bool) : dotBelow 0 u x = 0 := by
  unfold dotBelow
  rw [Finset.filter_false_of_mem (fun i _ => by omega), Finset.sum_empty]

theorem belowSet_top (x : Fin n → Bool) : belowSet n x = Finset.univ := by
  ext u
  simp only [belowSet, Finset.mem_filter, Finset.mem_univ, true_and, iff_true]
  intro i hi
  exact absurd i.isLt (by omega)

theorem dotBelow_top (u x : Fin n → Bool) : dotBelow n u x = dot2 u x := by
  unfold dotBelow dot2
  rw [Finset.filter_true_of_mem (fun i _ => i.isLt)]

/-- Action of the Hadamard layer on qubits `0..j-1`: the standard
Walsh-Hadamard expansion, with `(-1)` phases given by the partial GF(2)
dot product.  Stated for an arbitrary state `v` and arbitrary second-register
bits `y`, which simply ride along. -/
theorem hLayer_apply (v : QState n k) (y : Fin k → Bool) :
    ∀ (j : ℕ), j ≤ n → ∀ (x : Fin n → Bool),
      applyGates (hLayer j) v (x, y)
        = ∑ u ∈ belowSet j x, chi (dotBelow j u x) * v (u, y) := by
  intro j
  induction j with
  | zero =>
      intro _ x
      rw [show hLayer 0 = [] from rfl, applyGates_nil, belowSet_zero,
        Finset.sum_singleton, dotBelow_zero]
      simp [chi]
  | succ j ih =>
      intro hj x
      have hjn : j < n := by omega
      have hjnk : j < n + k := by omega
      set jF : Fin n := ⟨j, hjn⟩ with hjF
      have hsplit : hLayer (j + 1) = hLayer j ++ [Gate.h j] := by
        unfold hLayer
        rw [List.range_succ, List.map_append]
        rfl
      rw [hsplit, applyGates_append,
        show applyGates [Gate.h j] (applyGates (hLayer j) v)
          = applyGate (Gate.h j) (applyGates (hLayer j) v) from rfl]
      simp only [applyGate]
      rw [setB_fst x y hjn, setB_fst x y hjn, getB_fst x y hjn]
      rw [ih (by omega) (Function.update x jF false),
        ih (by omega) (Function.update x jF true)]
      -- identify the two sub-sums with the two halves of the (j+1)-sum
      have hA : ∀ b : Bool, belowSet j (Function.update x jF b)
          = (belowSet (j + 1) x).filter (fun u => u jF = b) := by
        intro b
        ext u
        simp only [belowSet, Finset.mem_filter, Finset.mem_univ, true_and]
        constructor
        · intro hu
          refine ⟨fun i hi => ?_, ?_⟩
          · have hne : i ≠ jF := by
              intro hc
              subst hc
              simp only [hjF] at hi
              omega
            have := hu i (by omega)
            rwa [Function.update_noteq hne] at this
          · have := hu jF (by simp [hjF])
            rwa [Function.update_same] at this
        · rintro ⟨h1, h2⟩ i hi
          by_cases hij : i = jF
          · subst hij
            rw [Function.update_same]
            exact h2
          · have hi1 : j + 1 ≤ i.val := by
              have : i.val ≠ j := by
                intro hc
                exact hij (Fin.ext (by simp [hjF, hc]))
              omega
            rw [Function.update_noteq hij]
            exact h1 i hi1
      have hB : ∀ (b : Bool) (u : Fin n → Bool),
          dotBelow j u (Function.update x jF b) = dotBelow j u x := by
        intro b u
        unfold dotBelow
        refine Finset.sum_congr rfl (fun i hi => ?_)
        simp only [Finset.mem_filter, Finset.mem_univ, true_and] at hi
        have hne : i ≠ jF := by
          intro hc
          subst hc
          simp only [hjF] at hi
          omega
        rw [Function.update_noteq hne]
      have hfilter : Finset.univ.filter (fun i : Fin n => i.val < j + 1)
          = insert jF (Finset.univ.filter (fun i : Fin n => i.val < j)) := by
        ext i
        simp only [Finset.mem_filter, Finset.mem_univ, true_and, Finset.mem_insert]
        constructor
        · intro hi
          by_cases hij : i = jF
          · exact Or.inl hij
          · refine Or.inr ?_
            have : i.val ≠ j := by
              intro hc
              exact hij (Fin.ext (by simp [hjF, hc]))
            omega
        · rintro (rfl | hi)
          · simp [hjF]
          · omega
      have hC : ∀ u : Fin n → Bool,
          dotBelow (j + 1) u x = dotBelow j u x + bitZ (u jF && x jF) := by
        intro u
        unfold dotBelow
        rw [hfilter, Finset.sum_insert (by simp)]
        exact add_comm _ _
      rw [← Finset.sum_filter_add_sum_filter_not (belowSet (j + 1) x)
        (fun u => u jF = false)]
      have hhalf1 :
          ∑ u ∈ belowSet j (Function.update x jF false),
              chi (dotBelow j u (Function.update x jF false)) * v (u, y)
          = ∑ u ∈ (belowSet (j + 1) x).filter (fun u => u jF = false),
              chi (dotBelow (j + 1) u x) * v (u, y) := by
        rw [hA false]
        refine Finset.sum_congr rfl (fun u hu => ?_)
        simp only [Finset.mem_filter] at hu
        rw [hB false u, hC u, hu.2]
        simp [bitZ]
      have hhalf2 :
          (if x jF then (-1 : ℤ) else 1) *
            ∑ u ∈ belowSet j (Function.update x jF true),
              chi (dotBelow j u (Function.update x jF true)) * v (u, y)
          = ∑ u ∈ (belowSet (j + 1) x).filter (fun u => ¬ u jF = false),
              chi (dotBelow (j + 1) u x) * v (u, y) := by
        have hff : (belowSet (j + 1) x).filter (fun u => ¬ u jF = false)
            = (belowSet (j + 1) x).filter (fun u => u jF = true) := by
          refine Finset.filter_congr (fun u _ => ?_)
          simp [Bool.not_eq_false]
        rw [hff, hA true, Finset.mul_sum]
        refine Finset.sum_congr rfl (fun u hu => ?_)
        simp only [Finset.mem_filter] at hu
        rw [hB true u, hC u, hu.2, Bool.true_and, chi_add, chi_bitZ]
        ring
      rw [hhalf1, hhalf2]

/-- Full Hadamard layer on all `n` first-register qubits. -/
theorem hLayer_apply_full (v : QState n k) (x : Fin n → Bool) (y : Fin k → Bool) :
    applyGates (hLayer n) v (x, y)
      = ∑ u : Fin n → Bool, chi (dot2 u x) * v (u, y) := by
  rw [hLayer_apply v y n le_rfl x, belowSet_top]
  refine Finset.sum_congr rfl (fun u _ => ?_)
  rw [dotBelow_top]

/-! ### GF(2) dot product algebra -/

theorem dot2_comm (a b : Fin n → Bool) : dot2 a b = dot2 b a := by
  unfold dot2
  refine Finset.sum_congr rfl (fun i _ => ?_)
  rw [Bool.and_comm]

theorem dot2_zero_right (u : Fin n → Bool) : dot2 u (zeroV n) = 0 := by
  unfold dot2 zeroV
  simp [bitZ]

theorem dot2_zero_left (u : Fin n → Bool) : dot2 (zeroV n) u = 0 := by
  rw [dot2_comm, dot2_zero_right]

theorem dot2_xor_right (u a b : Fin n → Bool) :
    dot2 u (xorF a b) = dot2 u a + dot2 u b := by
  unfold dot2 xorF
  rw [← Finset.sum_add_distrib]
  refine Finset.sum_congr rfl (fun i _ => ?_)
  cases u i <;> cases a i <;> cases b i <;> decide

theorem dot2_ones_right (u : Fin n → Bool) : dot2 u (onesV n) = par2 u := by
  unfold dot2 par2 onesV
  simp

theorem par2_xor (a b : Fin n → Bool) : par2 (xorF a b) = par2 a + par2 b := by
  unfold par2 xorF
  rw [← Finset.sum_add_distrib]
  refine Finset.sum_congr rfl (fun i _ => ?_)
  exact bitZ_xor (a i) (b i)

theorem xorF_zero_right (a : Fin n → Bool) : xorF a (zeroV n) = a := by
  funext i
  simp [xorF, zeroV]

theorem xorF_self (a : Fin n → Bool) : xorF a a = zeroV n := by
  funext i
  simp [xorF, zeroV]

theorem xorF_assoc (a b c : Fin n → Bool) : xorF (xorF a b) c = xorF a (xorF b c) := by
  funext i
  simp [xorF, Bool.xor_assoc]

theorem xorF_cancel_right (a b : Fin n → Bool) : xorF (xorF a b) b = a := by
  rw [xorF_assoc, xorF_self, xorF_zero_right]

theorem xorF_eq_zero_iff (a b : Fin n → Bool) : xorF a b = zeroV n ↔ a = b := by
  constructor
  · intro h
    funext i
    have hi := congrFun h i
    simp only [xorF, zeroV] at hi
    revert hi
    cases a i <;> cases b i <;> decide
  · intro h
    rw [h, xorF_self]

theorem xorF_eq_iff (a b c : Fin n → Bool) : xorF a b = c ↔ a = xorF c b := by
  constructor
  · intro h
    rw [← h, xorF_cancel_right]
  · intro h
    rw [h, xorF_cancel_right]

theorem dot2_update (i : Fin n) (u t : Fin n → Bool) :
    dot2 (Function.update u i (!u i)) t = dot2 u t + bitZ (t i) := by
  unfold dot2
  rw [← Finset.sum_erase_add _ _ (Finset.mem_univ i),
    ← Finset.sum_erase_add _ (fun j => bitZ (u j && t j)) (Finset.mem_univ i)]
  have hsame : ∑ j ∈ Finset.univ.erase i, bitZ (Function.update u i (!u i) j && t j)
      = ∑ j ∈ Finset.univ.erase i, bitZ (u j && t j) := by
    refine Finset.sum_congr rfl (fun j hj => ?_)
    have hne : j ≠ i := Finset.ne_of_mem_erase hj
    rw [Function.update_noteq hne]
  rw [hsame, Function.update_same, add_assoc]
  congr 1
  cases hu : u i <;> cases ht : t i <;> decide

/-- Orthogonality of Walsh characters: the sum of `(-1)^(u . t)` over all `u`
is `2^n` when `t = 0` and `0` otherwise. -/
theorem sum_chi_dot (t : Fin n → Bool) :
    ∑ u : Fin n → Bool, chi (dot2 u t) = if t = zeroV n then (2 ^ n : ℤ) else 0 := by
  by_cases ht : t = zeroV n
  · subst ht
    rw [if_pos rfl]
    have : ∀ u : Fin n → Bool, chi (dot2 u (zeroV n)) = 1 := by
      intro u
      rw [dot2_zero_right]
      decide
    rw [Finset.sum_congr rfl (fun u _ => this u), Finset.sum_const, Finset.card_univ,
      Fintype.card_fun, Fintype.card_bool, Fintype.card_fin]
    simp
  · rw [if_neg ht]
    have hex : ∃ i : Fin n, t i = true := by
      by_contra hc
      push_neg at hc
      exact ht (funext (fun i => by
        have := hc i
        simp only [Bool.not_eq_true] at this
        simp [this, zeroV]))
    obtain ⟨i0, hi0⟩ := hex
    refine Finset.sum_involution (fun u _ => Function.update u i0 (!u i0))
      ?_ ?_ (fun u hu => Finset.mem_univ _) ?_
    · intro u hu
      dsimp only
      rw [dot2_update, hi0]
      have hneg : chi (dot2 u t + bitZ true) = - chi (dot2 u t) := by
        rw [chi_add]
        have h1 : chi (bitZ true) = -1 := by decide
        rw [h1]
        ring
      rw [hneg]
      ring
    · intro u hu hne hc
      dsimp only at hc
      have hci := congrFun hc i0
      rw [Function.update_same] at hci
      cases hu0 : u i0 <;> rw [hu0] at hci <;> simp at hci
    · intro u hu
      dsimp only
      rw [Function.update_same, Function.update_idem, Bool.not_not,
        Function.update_eq_self]

/-! ### The circuits of the repository

`simon_oracle`, `simon_circuit` and `bdotz` are translated from the Simon
notebook under `src/`.  The Bernstein-Vazirani and Deutsch-Jozsa notebooks
live under `src/.ipynb_checkpoints/`: `bv_get_oracle` and `bv_algorithm`
are translated from `Bernstein_Vazirani-checkpoint.ipynb`, and `get_oracle`
and `dj_circuit` from `Deutsch_Jozsa-checkpoint.ipynb`. -/

/-- Oracle of the Simon notebook (`simon_oracle(s)` in the source): first the
copy loop `for q in range(n): qc.cx(q, n + q)`, then
`for i in range(n): if s[i] == "1": qc.cx(i, n + i)`, then the random swap
loop `for i in range(nr_swaps): x, y = randint(n, 2n-1); if x != y: qc.swap(x, y)`.
The random draws `(x, y)` of the swap loop are passed in explicitly as
`draws`, making the randomness an explicit parameter. -/
def simon_oracle (s : Fin n → Bool) (draws : List (ℕ × ℕ)) : List Gate :=
  ((List.finRange n).map (fun q => Gate.cx q.val (n + q.val)))
    ++ ((List.finRange n).filterMap
          (fun i => if s i then some (Gate.cx i.val (n + i.val)) else none))
    ++ (draws.filterMap
          (fun p => if p.1 ≠ p.2 then some (Gate.swap p.1 p.2) else none))

/-- Circuit of the Simon notebook (`simon_circuit(s)` in the source):
Hadamard the first register, apply the oracle, Hadamard the first register
again; the first register is then measured. -/
def simon_circuit (s : Fin n → Bool) (draws : List (ℕ × ℕ)) : List Gate :=
  hLayer n ++ simon_oracle s draws ++ hLayer n

/-- The values the swap-loop draws can take in the source:
`nr_swaps = randint(0, n)` pairs, each drawn by `randint(n, 2*n - 1)`
(bounds inclusive). -/
def DrawsValid (n : ℕ) (draws : List (ℕ × ℕ)) : Prop :=
  draws.length ≤ n ∧
    ∀ p ∈ draws, n ≤ p.1 ∧ p.1 < n + n ∧ n ≤ p.2 ∧ p.2 < n + n

/-- The Bernstein-Vazirani oracle builder (`get_oracle(s)` of the BV
notebook), translated as a fallible function.  After `rev_s = s[::-1]` the
loop body `if rev_s[i] == "0": oracle.i(q) else: oracle.cx(q, n)` reads the
name `i`, which is defined nowhere in the notebook (its only other
occurrences are comprehension-local), so the first iteration of
`for q in range(len(rev_s))` raises `NameError`: a call with a nonempty `s`
returns no gate sequence (`none`).  With the empty string the loop body
never runs and the empty circuit is returned. -/
def bv_get_oracle (s : List Bool) : Option (List Gate) :=
  if s.length = 0 then some [] else none

/-- The Bernstein-Vazirani template (`bv_algorithm(oracle_gate, n)` of the
BV notebook): `qc.x(n)`, `qc.h(n)`, then `for q in range(n): qc.h(n)` — the
source Hadamards the output qubit `n` on every iteration, not the input
qubit `q` — then the oracle appended on wires `0..n`, then again
`for q in range(n): qc.h(n)`; qubits `0..n-1` are then measured. -/
def bv_algorithm (oracle_gate : List Gate) (n : ℕ) : List Gate :=
  [Gate.x n, Gate.h n] ++ ((List.range n).map (fun _ => Gate.h n))
    ++ oracle_gate ++ ((List.range n).map (fun _ => Gate.h n))

/-- The hidden parameter of a Deutsch-Jozsa oracle — the random draw made
by the source's `get_oracle(oracle_type, n)`, passed explicitly:
`constant b` stands for `rand = np.random.randint(2)` with `b = (rand == 1)`;
`balanced bv` stands for `b = np.random.randint(1, 2**n)` with
`bv q = (b_str[q] == '1')` where `b_str = format(b, '0' + str(n) + 'b')`. -/
inductive DJKind (n : ℕ) where
  | constant (b : Bool)
  | balanced (bv : Fin n → Bool)
deriving DecidableEq

/-- The Deutsch-Jozsa oracle builder (`get_oracle(oracle_type, n)` of the DJ
notebook).  Balanced branch: `oracle.x(q)` for every `q` with
`b_str[q] == '1'`, then `oracle.cx(q, n)` for every `q in range(n)`, then
the same X layer again (`len(b_str) = n` since `b < 2**n`).  Constant
branch: `oracle.x(n)` exactly when `rand == 1`, otherwise no gates.  The
draw is the explicit `DJKind` parameter, with `bv q = (b_str[q] == '1')`. -/
def get_oracle : DJKind n → List Gate
  | .constant false => []
  | .constant true => [Gate.x n]
  | .balanced bv =>
      ((List.finRange n).filterMap
          (fun i => if bv i then some (Gate.x i.val) else none))
        ++ ((List.finRange n).map (fun i => Gate.cx i.val n))
        ++ ((List.finRange n).filterMap
              (fun i => if bv i then some (Gate.x i.val) else none))

/-- The Deutsch-Jozsa template (`dj_circuit(oracle_gate, n)` of the DJ
notebook): `circuit.h(qubit)` for every input qubit, `circuit.x(n)` and
`circuit.h(n)` on the output qubit, the oracle appended on wires `0..n`,
`circuit.h(qubit)` for every input qubit again; qubits `0..n-1` are then
measured (`circuit.measure(i, i)`). -/
def dj_circuit (o : DJKind n) : List Gate :=
  hLayer n ++ [Gate.x n, Gate.h n] ++ get_oracle o ++ hLayer n

/-- Validity of a generated Deutsch-Jozsa instance: the balanced branch
draws `b = np.random.randint(1, 2**n)`, so `b` is nonzero and its key
pattern `bv` has at least one set bit. -/
def DJValid : DJKind n → Prop
  | .constant _ => True
  | .balanced bv => bv ≠ zeroV n

/-- Whether a Deutsch-Jozsa instance is a constant oracle. -/
def DJIsConstant : DJKind n → Prop
  | .constant _ => True
  | .balanced _ => False

/-- The key pattern of the source's balanced branch as a function of the
draw `b`: `b_str = format(b, '0' + str(n) + 'b')` has character `q` equal
to bit `n - 1 - q` of `b`, so the gate list built from the draw `b` is
`get_oracle (DJKind.balanced (djKeyOfNat n b))`. -/
def djKeyOfNat (n b : ℕ) : Fin n → Bool :=
  fun q => b.testBit (n - 1 - q.val)

/-- The draw range `1 <= b < 2**n` of the balanced branch makes the key
pattern nonzero, which is the `DJValid` hypothesis of the theorems below. -/
theorem djKeyOfNat_ne_zero (n b : ℕ) (hb1 : 1 ≤ b) (hb2 : b < 2 ^ n) :
    djKeyOfNat n b ≠ zeroV n := by
  intro h
  have hb0 : b = 0 := by
    apply Nat.eq_of_testBit_eq
    intro k
    rw [Nat.zero_testBit]
    by_cases hk : k < n
    · have hq : n - 1 - k < n := by omega
      have hck := congrFun h ⟨n - 1 - k, hq⟩
      unfold djKeyOfNat zeroV at hck
      have hkk : n - 1 - (n - 1 - k) = k := by omega
      rw [hkk] at hck
      exact hck
    · exact Nat.testBit_eq_false_of_lt
        (lt_of_lt_of_le hb2 (Nat.pow_le_pow_right (by norm_num) (by omega)))
  omega

/-- The `bdotz` helper of the Simon notebook: the mod-2 dot product of two
bit-strings, iterating `i` over `range(len(b))` and accumulating
`int(b[i]) * int(z[i])`.  Strings are modelled as `List Bool` (character
`'1'` as `true`); out-of-range reads return `false` (the source never
reads out of range since both strings have equal length). -/
def bdotz (b z : List Bool) : ℕ :=
  ((List.range b.length).foldl
    (fun acc i => acc + (if b.getD i false then 1 else 0) *
      (if z.getD i false then 1 else 0)) 0) % 2

/-! ### Index maps of the oracle gate lists -/

/-- Conditionally flip every second-register bit (used with `k = 1`, where the
single ancilla bit is flipped when `b` is true). -/
def condFlip (y : Fin k → Bool) (b : Bool) : Fin k → Bool :=
  fun j => xor (y j) b

/-- Bool-valued partial dot product along a list of positions. -/
def dotL (g : Fin n → Bool) (L : List (Fin n)) : Bool :=
  L.foldr (fun i acc => xor (g i) acc) false

theorem condFlip_false (y : Fin k → Bool) : condFlip y false = y := by
  funext j
  simp [condFlip]

theorem condFlip_condFlip (y : Fin k → Bool) (a b : Bool) :
    condFlip (condFlip y a) b = condFlip y (xor a b) := by
  funext j
  simp only [condFlip]
  cases y j <;> cases a <;> cases b <;> decide

theorem flipB_fst (x : Fin n → Bool) (y : Fin k → Bool) {q : ℕ} (hq : q < n) :
    flipB q ((x, y) : QPoint n k)
      = (Function.update x ⟨q, hq⟩ (!x ⟨q, hq⟩), y) := by
  unfold flipB
  rw [getB_fst x y hq, setB_fst x y hq]

theorem flipB_snd (x : Fin n → Bool) (y : Fin k → Bool) {q : ℕ}
    (hq1 : n ≤ q) (hq2 : q < n + k) :
    flipB q ((x, y) : QPoint n k)
      = (x, Function.update y ⟨q - n, by omega⟩ (!y ⟨q - n, by omega⟩)) := by
  unfold flipB
  rw [getB_snd x y hq1 hq2, setB_snd x y hq1 hq2]

theorem bitZ_dotL (g : Fin n → Bool) :
    ∀ L : List (Fin n), bitZ (dotL g L) = (L.map (fun i => bitZ (g i))).sum := by
  intro L
  induction L with
  | nil => simp [dotL, bitZ]
  | cons i t ih =>
      simp only [dotL, List.foldr_cons, List.map_cons, List.sum_cons]
      rw [bitZ_xor]
      simp only [dotL] at ih
      rw [ih]

theorem bitZ_dotL_finRange (g : Fin n → Bool) :
    bitZ (dotL g (List.finRange n)) = ∑ i : Fin n, bitZ (g i) := by
  rw [bitZ_dotL, ← Fin.sum_univ_def]

/-- Update of a one-bit register is a constant function. -/
theorem fin1_update (y : Fin 1 → Bool) (j0 : Fin 1) (c : Bool) :
    Function.update y j0 c = fun _ => c := by
  funext j
  rw [Subsingleton.elim j j0, Function.update_same]

/-- Flipping the ancilla qubit `n` of an `n + 1` register. -/
theorem flipB_anc (x : Fin n → Bool) (y : Fin 1 → Bool) :
    flipB n ((x, y) : QPoint n 1) = (x, fun j => !(y j)) := by
  rw [flipB_snd x y le_rfl (by omega)]
  refine Prod.ext rfl ?_
  rw [fin1_update]
  funext j
  rw [Subsingleton.elim j ⟨n - n, by omega⟩]

/-- Index map of a list of CXs from selected input qubits to the common
ancilla qubit `n` (the Bernstein-Vazirani oracle pattern, and — with an
all-true guard — the Deutsch-Jozsa CX layer). -/
theorem idxMap_cx_anc (s : Fin n → Bool) :
    ∀ (L : List (Fin n)) (x : Fin n → Bool) (y : Fin 1 → Bool),
      idxMap (L.filterMap (fun i => if s i then some (Gate.cx i.val n) else none))
          ((x, y) : QPoint n 1)
        = (x, condFlip y (dotL (fun i => s i && x i) L)) := by
  intro L
  induction L with
  | nil =>
      intro x y
      simp [idxMap_nil, dotL, condFlip_false]
  | cons i t ih =>
      intro x y
      by_cases hsi : s i
      · rw [List.filterMap_cons]
        simp only [hsi, if_pos]
        rw [idxMap_cons]
        simp only [Function.comp_apply]
        rw [ih x y]
        simp only [tauGate]
        have hget : getB ((x, condFlip y (dotL (fun i => s i && x i) t)) : QPoint n 1) i.val
            = x i := by
          rw [getB_fst _ _ i.isLt]
        rw [hget]
        have hdot : dotL (fun j => s j && x j) (i :: t)
            = xor (x i) (dotL (fun j => s j && x j) t) := by
          simp only [dotL, List.foldr_cons, hsi, Bool.true_and]
        by_cases hxi : x i
        · rw [if_pos hxi, flipB_anc]
          refine Prod.ext rfl ?_
          funext j
          simp only [condFlip, hdot, hxi]
          cases y j <;> cases dotL (fun j => s j && x j) t <;> decide
        · rw [if_neg hxi]
          refine Prod.ext rfl ?_
          funext j
          simp only [condFlip, hdot]
          have : x i = false := by simpa using hxi
          rw [this]
          cases y j <;> cases dotL (fun j => s j && x j) t <;> decide
      · rw [List.filterMap_cons]
        simp only [hsi, if_neg, Bool.false_eq_true, not_false_eq_true]
        rw [ih x y]
        refine Prod.ext rfl ?_
        funext j
        simp only [condFlip]
        have hdot : dotL (fun j => s j && x j) (i :: t)
            = dotL (fun j => s j && x j) t := by
          simp only [dotL, List.foldr_cons]
          have : s i = false := by simpa using hsi
          rw [this]
          simp
        rw [hdot]

/-- Index map of an X-wrap layer: X on every input qubit selected by `bv`
(requires the position list to have no duplicates). -/
theorem idxMap_xwrap (bv : Fin n → Bool) :
    ∀ (L : List (Fin n)), L.Nodup → ∀ (x : Fin n → Bool) (y : Fin k → Bool),
      idxMap (L.filterMap (fun i => if bv i then some (Gate.x i.val) else none))
          ((x, y) : QPoint n k)
        = (fun j => xor (x j) (if j ∈ L then bv j else false), y) := by
  intro L
  induction L with
  | nil =>
      intro _ x y
      simp only [List.filterMap_nil, idxMap_nil, id_eq, List.not_mem_nil, if_false]
      refine Prod.ext ?_ rfl
      funext j
      simp
  | cons i t ih =>
      intro hnd x y
      have hnd' : t.Nodup := (List.nodup_cons.mp hnd).2
      have hni : i ∉ t := (List.nodup_cons.mp hnd).1
      by_cases hbi : bv i
      · rw [List.filterMap_cons]
        simp only [hbi, if_pos]
        rw [idxMap_cons]
        simp only [Function.comp_apply]
        rw [ih hnd' x y]
        simp only [tauGate]
        rw [flipB_fst _ y i.isLt]
        refine Prod.ext ?_ rfl
        funext j
        dsimp only
        by_cases hji : j = i
        · subst hji
          rw [show (⟨j.val, j.isLt⟩ : Fin n) = j from Fin.eta j _]
          rw [Function.update_same]
          simp only [List.mem_cons, true_or, if_pos, hbi]
          have hjt : (j ∈ t) = False := by simp [hni]
          simp only [hjt, if_false]
          cases x j <;> decide
        · rw [show (⟨i.val, i.isLt⟩ : Fin n) = i from Fin.eta i _,
            Function.update_noteq hji]
          have : (j ∈ i :: t) ↔ (j ∈ t) := by
            simp [List.mem_cons, hji]
          simp only [this]
      · rw [List.filterMap_cons]
        simp only [hbi, if_neg, Bool.false_eq_true, not_false_eq_true]
        rw [ih hnd' x y]
        refine Prod.ext ?_ rfl
        funext j
        dsimp only
        by_cases hji : j = i
        · subst hji
          simp only [List.mem_cons, true_or, if_pos]
          have hbj : bv j = false := by simpa using hbi
          have hjt : (j ∈ t) = False := by simp [hni]
          simp only [hjt, if_false, hbj]
        · have : (j ∈ i :: t) ↔ (j ∈ t) := by
            simp [List.mem_cons, hji]
          simp only [this]

/-! ### Simon oracle building blocks (second register of size `n`) -/

theorem getB_snd_fin (x y : Fin n → Bool) (i : Fin n) :
    getB ((x, y) : QPoint n n) (n + i.val) = y i := by
  rw [getB_snd x y (by omega) (by omega)]
  congr 1
  apply Fin.ext
  simp

theorem flipB_snd_fin (x y : Fin n → Bool) (i : Fin n) :
    flipB (n + i.val) ((x, y) : QPoint n n)
      = (x, Function.update y i (!y i)) := by
  rw [flipB_snd x y (by omega) (by omega)]
  refine Prod.ext rfl ?_
  have hidx : (⟨n + i.val - n, by omega⟩ : Fin n) = i := by
    apply Fin.ext
    simp
  rw [hidx]

/-- Index map of the Simon copy loop `for q in range(n): qc.cx(q, n + q)`
restricted to any duplicate-free position list. -/
theorem idxMap_copy :
    ∀ (L : List (Fin n)), L.Nodup → ∀ (x y : Fin n → Bool),
      idxMap (L.map (fun q => Gate.cx q.val (n + q.val))) ((x, y) : QPoint n n)
        = (x, fun j => xor (y j) (if j ∈ L then x j else false)) := by
  intro L
  induction L with
  | nil =>
      intro _ x y
      simp only [List.map_nil, idxMap_nil, id_eq, List.not_mem_nil, if_false]
      refine Prod.ext rfl ?_
      funext j
      simp
  | cons q t ih =>
      intro hnd x y
      have hnd' : t.Nodup := (List.nodup_cons.mp hnd).2
      have hnq : q ∉ t := (List.nodup_cons.mp hnd).1
      rw [List.map_cons, idxMap_cons]
      simp only [Function.comp_apply]
      rw [ih hnd' x y]
      simp only [tauGate]
      have hget : getB ((x, fun j => xor (y j) (if j ∈ t then x j else false)) :
          QPoint n n) q.val = x q := by
        rw [getB_fst _ _ q.isLt, Fin.eta]
      rw [hget]
      by_cases hxq : x q
      · rw [if_pos hxq, flipB_snd_fin]
        refine Prod.ext rfl ?_
        funext j
        dsimp only
        by_cases hjq : j = q
        · subst hjq
          rw [Function.update_same]
          have hjt : (j ∈ t) = False := by simp [hnq]
          simp only [hjt, if_false, List.mem_cons, true_or, if_pos, hxq]
          cases y j <;> decide
        · rw [Function.update_noteq hjq]
          have hmem : (j ∈ q :: t) ↔ (j ∈ t) := by simp [List.mem_cons, hjq]
          simp only [hmem]
      · rw [if_neg hxq]
        refine Prod.ext rfl ?_
        funext j
        dsimp only
        by_cases hjq : j = q
        · subst hjq
          have hjt : (j ∈ t) = False := by simp [hnq]
          have hxj : x j = false := by simpa using hxq
          simp only [hjt, if_false, List.mem_cons, true_or, if_pos, hxj]
        · have hmem : (j ∈ q :: t) ↔ (j ∈ t) := by simp [List.mem_cons, hjq]
          simp only [hmem]

/-- Index map of the Simon masking loop
`for i in range(n): if s[i] == "1": qc.cx(i, n + i)`. -/
theorem idxMap_mask (s : Fin n → Bool) :
    ∀ (L : List (Fin n)), L.Nodup → ∀ (x y : Fin n → Bool),
      idxMap (L.filterMap
            (fun i => if s i then some (Gate.cx i.val (n + i.val)) else none))
          ((x, y) : QPoint n n)
        = (x, fun j => xor (y j) (if j ∈ L then s j && x j else false)) := by
  intro L
  induction L with
  | nil =>
      intro _ x y
      simp only [List.filterMap_nil, idxMap_nil, id_eq, List.not_mem_nil, if_false]
      refine Prod.ext rfl ?_
      funext j
      simp
  | cons q t ih =>
      intro hnd x y
      have hnd' : t.Nodup := (List.nodup_cons.mp hnd).2
      have hnq : q ∉ t := (List.nodup_cons.mp hnd).1
      rw [List.filterMap_cons]
      by_cases hsq : s q
      · simp only [hsq, if_pos]
        rw [idxMap_cons]
        simp only [Function.comp_apply]
        rw [ih hnd' x y]
        simp only [tauGate]
        have hget : getB ((x, fun j => xor (y j) (if j ∈ t then s j && x j else false)) :
            QPoint n n) q.val = x q := by
          rw [getB_fst _ _ q.isLt, Fin.eta]
        rw [hget]
        by_cases hxq : x q
        · rw [if_pos hxq, flipB_snd_fin]
          refine Prod.ext rfl ?_
          funext j
          dsimp only
          by_cases hjq : j = q
          · subst hjq
            rw [Function.update_same]
            have hjt : (j ∈ t) = False := by simp [hnq]
            simp only [hjt, if_false, List.mem_cons, true_or, if_pos, hsq, hxq,
              Bool.true_and]
            cases y j <;> decide
          · rw [Function.update_noteq hjq]
            have hmem : (j ∈ q :: t) ↔ (j ∈ t) := by simp [List.mem_cons, hjq]
            simp only [hmem]
        · rw [if_neg hxq]
          refine Prod.ext rfl ?_
          funext j
          dsimp only
          by_cases hjq : j = q
          · subst hjq
            have hjt : (j ∈ t) = False := by simp [hnq]
            have hxj : x j = false := by simpa using hxq
            simp only [hjt, if_false, List.mem_cons, true_or, if_pos, hxj,
              Bool.and_false]
          · have hmem : (j ∈ q :: t) ↔ (j ∈ t) := by simp [List.mem_cons, hjq]
            simp only [hmem]
      · simp only [hsq, if_neg, Bool.false_eq_true, not_false_eq_true]
        rw [ih hnd' x y]
        refine Prod.ext rfl ?_
        funext j
        dsimp only
        by_cases hjq : j = q
        · subst hjq
          have hjt : (j ∈ t) = False := by simp [hnq]
          have hsj : s j = false := by simpa using hsq
          simp only [hjt, if_false, List.mem_cons, true_or, if_pos, hsj,
            Bool.false_and]
        · have hmem : (j ∈ q :: t) ↔ (j ∈ t) := by simp [List.mem_cons, hjq]
          simp only [hmem]

/-! ### The random swap layer -/

/-- Effect of one swap draw `(p.1, p.2)` on the second register: the
transposition of output positions `p.1 - n` and `p.2 - n` when the draw is a
genuine in-range swap, and the identity otherwise (the source skips
`x == y` draws). -/
def swapIdx (n : ℕ) (p : ℕ × ℕ) (y : Fin n → Bool) : Fin n → Bool :=
  if h : p.1 ≠ p.2 ∧ n ≤ p.1 ∧ p.1 < n + n ∧ n ≤ p.2 ∧ p.2 < n + n then
    Function.update (Function.update y ⟨p.1 - n, by omega⟩ (y ⟨p.2 - n, by omega⟩))
      ⟨p.2 - n, by omega⟩ (y ⟨p.1 - n, by omega⟩)
  else y

/-- Permutation of the second register realised by the whole swap loop. -/
def permOf (n : ℕ) (draws : List (ℕ × ℕ)) : (Fin n → Bool) → (Fin n → Bool) :=
  draws.foldr (fun p f => swapIdx n p ∘ f) id

/-- Inverse of `permOf` (the same transpositions composed in reverse). -/
def permInv (n : ℕ) (draws : List (ℕ × ℕ)) : (Fin n → Bool) → (Fin n → Bool) :=
  draws.foldl (fun f p => swapIdx n p ∘ f) id

theorem swapIdx_swapIdx (p : ℕ × ℕ) (y : Fin n → Bool) :
    swapIdx n p (swapIdx n p y) = y := by
  unfold swapIdx
  by_cases hp : p.1 ≠ p.2 ∧ n ≤ p.1 ∧ p.1 < n + n ∧ n ≤ p.2 ∧ p.2 < n + n
  · rw [dif_pos hp, dif_pos hp]
    set a : Fin n := ⟨p.1 - n, by omega⟩ with ha
    set b : Fin n := ⟨p.2 - n, by omega⟩ with hb
    have hab : a ≠ b := by
      rw [ha, hb]
      intro hc
      rw [Fin.mk.injEq] at hc
      omega
    have hTb : Function.update (Function.update y a (y b)) b (y a) b = y a := by
      rw [Function.update_same]
    have hTa : Function.update (Function.update y a (y b)) b (y a) a = y b := by
      rw [Function.update_noteq hab, Function.update_same]
    rw [hTa, hTb]
    funext j
    by_cases hjb : j = b
    · subst hjb
      rw [Function.update_same]
    · rw [Function.update_noteq hjb]
      by_cases hja : j = a
      · subst hja
        rw [Function.update_same]
      · rw [Function.update_noteq hja, Function.update_noteq hjb,
          Function.update_noteq hja]
  · rw [dif_neg hp, dif_neg hp]

theorem foldl_swap_comp :
    ∀ (ds : List (ℕ × ℕ)) (g : (Fin n → Bool) → (Fin n → Bool)),
      ds.foldl (fun f p => swapIdx n p ∘ f) g
        = (ds.foldl (fun f p => swapIdx n p ∘ f) id) ∘ g := by
  intro ds
  induction ds with
  | nil => intro g; rfl
  | cons p t ih =>
      intro g
      simp only [List.foldl_cons]
      rw [ih (swapIdx n p ∘ g), ih (swapIdx n p ∘ id)]
      rfl

theorem permInv_cons (p : ℕ × ℕ) (t : List (ℕ × ℕ)) :
    permInv n (p :: t) = permInv n t ∘ swapIdx n p := by
  unfold permInv
  rw [List.foldl_cons, foldl_swap_comp]
  rfl

theorem permOf_cons (p : ℕ × ℕ) (t : List (ℕ × ℕ)) :
    permOf n (p :: t) = swapIdx n p ∘ permOf n t := rfl

theorem permOf_permInv : ∀ (ds : List (ℕ × ℕ)) (y : Fin n → Bool),
    permOf n ds (permInv n ds y) = y := by
  intro ds
  induction ds with
  | nil => intro y; rfl
  | cons p t ih =>
      intro y
      rw [permInv_cons, permOf_cons]
      simp only [Function.comp_apply]
      rw [ih (swapIdx n p y), swapIdx_swapIdx]

theorem permInv_permOf : ∀ (ds : List (ℕ × ℕ)) (y : Fin n → Bool),
    permInv n ds (permOf n ds y) = y := by
  intro ds
  induction ds with
  | nil => intro y; rfl
  | cons p t ih =>
      intro y
      rw [permInv_cons, permOf_cons]
      simp only [Function.comp_apply]
      rw [swapIdx_swapIdx, ih y]

theorem permOf_eq_iff (ds : List (ℕ × ℕ)) (y c : Fin n → Bool) :
    permOf n ds y = c ↔ y = permInv n ds c := by
  constructor
  · intro h
    rw [← h, permInv_permOf]
  · intro h
    rw [h, permOf_permInv]

theorem permInv_injective (ds : List (ℕ × ℕ)) :
    Function.Injective (permInv n ds) := by
  intro a b hab
  have := congrArg (permOf n ds) hab
  rwa [permOf_permInv, permOf_permInv] at this

/-- The swap section of a `QPoint n n` computed by `swapB`. -/
theorem swapB_snd_pair (x y : Fin n → Bool) {a b : ℕ}
    (ha1 : n ≤ a) (ha2 : a < n + n) (hb1 : n ≤ b) (hb2 : b < n + n) :
    swapB a b ((x, y) : QPoint n n)
      = (x, Function.update (Function.update y ⟨a - n, by omega⟩ (y ⟨b - n, by omega⟩))
          ⟨b - n, by omega⟩ (y ⟨a - n, by omega⟩)) := by
  unfold swapB
  rw [getB_snd x y hb1 (by omega), getB_snd x y ha1 (by omega),
    setB_snd x y ha1 (by omega), setB_snd _ _ hb1 (by omega)]

/-- Index map of the random swap loop. -/
theorem idxMap_swaps :
    ∀ (ds : List (ℕ × ℕ)),
      (∀ p ∈ ds, n ≤ p.1 ∧ p.1 < n + n ∧ n ≤ p.2 ∧ p.2 < n + n) →
      ∀ (x y : Fin n → Bool),
        idxMap (ds.filterMap
            (fun p => if p.1 ≠ p.2 then some (Gate.swap p.1 p.2) else none))
          ((x, y) : QPoint n n)
        = (x, permOf n ds y) := by
  intro ds
  induction ds with
  | nil =>
      intro _ x y
      simp only [List.filterMap_nil, idxMap_nil, id_eq]
      rfl
  | cons p t ih =>
      intro hd x y
      have hdt : ∀ q ∈ t, n ≤ q.1 ∧ q.1 < n + n ∧ n ≤ q.2 ∧ q.2 < n + n :=
        fun q hq => hd q (List.mem_cons_of_mem _ hq)
      have hdp := hd p (List.mem_cons_self p t)
      rw [List.filterMap_cons]
      by_cases hpp : p.1 = p.2
      · simp only [hpp, ne_eq, not_true_eq_false, if_false, reduceIte]
        rw [ih hdt x y, permOf_cons]
        simp only [Function.comp_apply]
        have : swapIdx n p (permOf n t y) = permOf n t y := by
          unfold swapIdx
          rw [dif_neg (by simp [hpp])]
        rw [this]
      · simp only [ne_eq, hpp, not_false_eq_true, if_pos, reduceIte]
        rw [idxMap_cons]
        simp only [Function.comp_apply]
        rw [ih hdt x y]
        simp only [tauGate]
        rw [swapB_snd_pair x (permOf n t y) hdp.1 hdp.2.1 hdp.2.2.1 hdp.2.2.2]
        refine Prod.ext rfl ?_
        rw [permOf_cons]
        simp only [Function.comp_apply]
        unfold swapIdx
        rw [dif_pos ⟨hpp, hdp.1, hdp.2.1, hdp.2.2.1, hdp.2.2.2⟩]

/-! ### The Simon oracle as a whole -/

/-- The masked copy computed by the Simon oracle's CX layers: position `j` of
the output register receives `x j` when `s j = 0`, and `x j XOR x j = 0` when
`s j = 1` (the masking CX cancels the copy CX on the same wire pair). -/
def maskF (s x : Fin n → Bool) : Fin n → Bool := fun j => x j && !(s j)

/-- The classical function computed by the Simon oracle into the output
register on basis inputs, with the swap-layer permutation accounted for. -/
def f_simon (s : Fin n → Bool) (draws : List (ℕ × ℕ)) (x : Fin n → Bool) :
    Fin n → Bool :=
  permInv n draws (maskF s x)

theorem idxMap_simon_oracle (s : Fin n → Bool) (draws : List (ℕ × ℕ))
    (hd : DrawsValid n draws) (x y : Fin n → Bool) :
    idxMap (simon_oracle s draws) ((x, y) : QPoint n n)
      = (x, xorF (permOf n draws y) (maskF s x)) := by
  unfold simon_oracle
  rw [idxMap_append, idxMap_append]
  simp only [Function.comp_apply]
  rw [idxMap_swaps draws hd.2 x y,
    idxMap_mask s (List.finRange n) (List.nodup_finRange n) x (permOf n draws y),
    idxMap_copy (List.finRange n) (List.nodup_finRange n)]
  refine Prod.ext rfl ?_
  funext j
  have hmem : j ∈ List.finRange n := List.mem_finRange j
  simp only [hmem, if_pos, xorF, maskF, reduceIte]
  cases permOf n draws y j <;> cases s j <;> cases x j <;> decide

theorem simon_oracle_gates_perm (s : Fin n → Bool) (draws : List (ℕ × ℕ)) :
    ∀ g ∈ simon_oracle s draws, Gate.isPerm g := by
  intro g hg
  unfold simon_oracle at hg
  rw [List.mem_append, List.mem_append] at hg
  rcases hg with (hg | hg) | hg
  · rw [List.mem_map] at hg
    obtain ⟨q, _, rfl⟩ := hg
    trivial
  · rw [List.mem_filterMap] at hg
    obtain ⟨i, _, hi⟩ := hg
    by_cases hsi : s i
    · rw [if_pos hsi, Option.some_inj] at hi
      rw [← hi]
      trivial
    · rw [if_neg hsi] at hi
      exact absurd hi (by simp)
  · rw [List.mem_filterMap] at hg
    obtain ⟨p, _, hp⟩ := hg
    by_cases hne : p.1 ≠ p.2
    · rw [if_pos hne, Option.some_inj] at hp
      rw [← hp]
      trivial
    · rw [if_neg hne] at hp
      exact absurd hp (by simp)

/-- Action of the Simon oracle gate sequence on a basis state `|x>|0>`: it
produces exactly `|x>|f_simon s draws x>`. -/
theorem simon_oracle_on_basis (s : Fin n → Bool) (draws : List (ℕ × ℕ))
    (hd : DrawsValid n draws) (x0 : Fin n → Bool) :
    applyGates (simon_oracle s draws) (basisState ((x0, zeroV n) : QPoint n n))
      = basisState (x0, f_simon s draws x0) := by
  rw [applyGates_perm (simon_oracle_gates_perm s draws)]
  funext p
  obtain ⟨x, w⟩ := p
  rw [idxMap_simon_oracle s draws hd x w]
  simp only [basisState, Prod.mk.injEq]
  by_cases hx : x = x0
  · subst hx
    have hiff : xorF (permOf n draws w) (maskF s x) = zeroV n
        ↔ w = f_simon s draws x := by
      rw [xorF_eq_zero_iff, permOf_eq_iff]
      unfold f_simon
      exact Iff.rfl
    by_cases hw : w = f_simon s draws x
    · subst hw
      have h1 : xorF (permOf n draws (f_simon s draws x)) (maskF s x) = zeroV n :=
        hiff.mpr rfl
      simp [h1]
    · have h1 : ¬ (xorF (permOf n draws w) (maskF s x) = zeroV n) :=
        fun hc => hw (hiff.mp hc)
      simp [h1, hw]
  · simp [hx]

/-! ### Properties of the Simon oracle's classical function -/

theorem maskF_xor_s (s x : Fin n → Bool) : maskF s (xorF x s) = maskF s x := by
  funext j
  simp only [maskF, xorF]
  cases s j <;> cases x j <;> decide

theorem maskF_zero (x : Fin n → Bool) : maskF (zeroV n) x = x := by
  funext j
  simp [maskF, zeroV]

theorem f_simon_period (s : Fin n → Bool) (draws : List (ℕ × ℕ)) (x : Fin n → Bool) :
    f_simon s draws (xorF x s) = f_simon s draws x := by
  unfold f_simon
  rw [maskF_xor_s]

theorem f_simon_collision (s : Fin n → Bool) (draws : List (ℕ × ℕ))
    (x y : Fin n → Bool) :
    f_simon s draws x = f_simon s draws y ↔ maskF s x = maskF s y := by
  constructor
  · intro h
    exact permInv_injective draws h
  · intro h
    unfold f_simon
    rw [h]

theorem f_simon_injective_of_zero (draws : List (ℕ × ℕ)) (x y : Fin n → Bool)
    (h : f_simon (zeroV n) draws x = f_simon (zeroV n) draws y) : x = y := by
  have := (f_simon_collision (zeroV n) draws x y).mp h
  rwa [maskF_zero, maskF_zero] at this

theorem bitZ_injective {a b : Bool} (h : bitZ a = bitZ b) : a = b := by
  revert h
  cases a <;> cases b <;> decide

theorem condFlip_eq_iff (y y0 : Fin k → Bool) (b : Bool) :
    condFlip y b = y0 ↔ y = condFlip y0 b := by
  constructor
  · intro h
    rw [← h, condFlip_condFlip]
    cases b <;> simp [condFlip_false, condFlip]
  · intro h
    rw [h, condFlip_condFlip]
    cases b <;> simp [condFlip_false, condFlip]

/-! ### The Deutsch-Jozsa oracle -/

/-- Parity of a bit assignment as a Bool. -/
def parBool (x : Fin n → Bool) : Bool :=
  dotL x (List.finRange n)

theorem bitZ_parBool (x : Fin n → Bool) : bitZ (parBool x) = par2 x := by
  unfold parBool par2
  rw [bitZ_dotL_finRange]

theorem parBool_xor (a b : Fin n → Bool) :
    parBool (xorF a b) = xor (parBool a) (parBool b) := by
  apply bitZ_injective
  rw [bitZ_parBool, bitZ_xor, bitZ_parBool, bitZ_parBool, par2_xor]

theorem map_eq_filterMap_ones (g : Fin n → Gate) :
    ∀ L : List (Fin n),
      L.map g = L.filterMap (fun i => if onesV n i then some (g i) else none) := by
  intro L
  induction L with
  | nil => rfl
  | cons i t ih =>
      rw [List.map_cons, List.filterMap_cons]
      have hsome : (if onesV n i then some (g i) else none) = some (g i) := by
        simp [onesV]
      rw [hsome, ih]

theorem idxMap_dj_balanced (bv : Fin n → Bool) (x : Fin n → Bool) (y : Fin 1 → Bool) :
    idxMap (get_oracle (DJKind.balanced bv)) ((x, y) : QPoint n 1)
      = (x, condFlip y (parBool (xorF x bv))) := by
  show idxMap (_ ++ _ ++ _) ((x, y) : QPoint n 1) = _
  rw [idxMap_append, idxMap_append]
  simp only [Function.comp_apply]
  rw [idxMap_xwrap bv (List.finRange n) (List.nodup_finRange n) x y]
  have hx3 : (fun j => xor (x j) (if j ∈ List.finRange n then bv j else false))
      = xorF x bv := by
    funext j
    simp [List.mem_finRange, xorF]
  rw [hx3]
  rw [map_eq_filterMap_ones (fun i => Gate.cx i.val n) (List.finRange n),
    idxMap_cx_anc (onesV n) (List.finRange n) (xorF x bv) y]
  have hdot : dotL (fun i => onesV n i && xorF x bv i) (List.finRange n)
      = parBool (xorF x bv) := by
    unfold parBool
    have hfun : (fun i => onesV n i && xorF x bv i) = xorF x bv := by
      funext i
      simp [onesV]
    rw [hfun]
  rw [hdot]
  rw [idxMap_xwrap bv (List.finRange n) (List.nodup_finRange n) (xorF x bv)
    (condFlip y (parBool (xorF x bv)))]
  refine Prod.ext ?_ rfl
  funext j
  simp only [List.mem_finRange, if_pos, xorF, reduceIte]
  cases x j <;> cases bv j <;> decide

theorem dj_oracle_gates_perm (o : DJKind n) :
    ∀ g ∈ get_oracle o, Gate.isPerm g := by
  intro g hg
  cases o with
  | constant b =>
      cases b with
      | false => exact absurd hg (by simp [get_oracle])
      | true =>
          unfold get_oracle at hg
          rw [List.mem_singleton] at hg
          rw [hg]
          trivial
  | balanced bv =>
      unfold get_oracle at hg
      rw [List.mem_append, List.mem_append] at hg
      rcases hg with (hg | hg) | hg
      · rw [List.mem_filterMap] at hg
        obtain ⟨i, _, hi⟩ := hg
        by_cases hbi : bv i
        · rw [if_pos hbi, Option.some_inj] at hi
          rw [← hi]
          trivial
        · rw [if_neg hbi] at hi
          exact absurd hi (by simp)
      · rw [List.mem_map] at hg
        obtain ⟨i, _, rfl⟩ := hg
        trivial
      · rw [List.mem_filterMap] at hg
        obtain ⟨i, _, hi⟩ := hg
        by_cases hbi : bv i
        · rw [if_pos hbi, Option.some_inj] at hi
          rw [← hi]
          trivial
        · rw [if_neg hbi] at hi
          exact absurd hi (by simp)

/-- Action of the balanced branch of the Deutsch-Jozsa `get_oracle` on a
basis state `|x>|y>`: the inputs are unchanged and the output bit becomes
`y XOR parity(x XOR bv) = y XOR parity(x) XOR parity(bv)`. -/
theorem dj_balanced_on_basis (bv : Fin n → Bool) (x0 : Fin n → Bool)
    (y0 : Fin 1 → Bool) :
    applyGates (get_oracle (DJKind.balanced bv)) (basisState ((x0, y0) : QPoint n 1))
      = basisState (x0, condFlip y0 (parBool (xorF x0 bv))) := by
  rw [applyGates_perm (dj_oracle_gates_perm (DJKind.balanced bv))]
  funext p
  obtain ⟨x, y⟩ := p
  rw [idxMap_dj_balanced bv x y]
  simp only [basisState, Prod.mk.injEq]
  by_cases hx : x = x0
  · subst hx
    by_cases hy : y = condFlip y0 (parBool (xorF x bv))
    · subst hy
      have h1 : condFlip (condFlip y0 (parBool (xorF x bv))) (parBool (xorF x bv)) = y0 :=
        (condFlip_eq_iff _ _ _).mpr rfl
      simp [h1]
    · have h1 : ¬ (condFlip y (parBool (xorF x bv)) = y0) :=
        fun hc => hy ((condFlip_eq_iff _ _ _).mp hc)
      simp [h1, hy]
  · simp [hx]

/-! ### Amplitudes through the full circuits -/

theorem sum_ite_weight (f : (Fin n → Bool) → ℤ) (c : Fin n → Bool) :
    ∑ u : Fin n → Bool, f u * (if u = c then 1 else 0) = f c := by
  have h : ∀ u, f u * (if u = c then 1 else 0) = if u = c then f u else 0 := by
    intro u
    by_cases hu : u = c <;> simp [hu]
  rw [Finset.sum_congr rfl (fun u _ => h u), Finset.sum_ite_eq' Finset.univ c f]
  simp

theorem setB_anc (x : Fin n → Bool) (y : Fin 1 → Bool) (b : Bool) :
    setB ((x, y) : QPoint n 1) n b = (x, fun _ => b) := by
  rw [setB_snd x y le_rfl (by omega), fin1_update]

theorem getB_anc (x : Fin n → Bool) (y : Fin 1 → Bool) :
    getB ((x, y) : QPoint n 1) n = y 0 := by
  rw [getB_snd x y le_rfl (by omega)]
  congr 1
  apply Subsingleton.elim

theorem fin1_eq_iff (f g : Fin 1 → Bool) : f = g ↔ f 0 = g 0 := by
  constructor
  · intro h
    rw [h]
  · intro h
    funext j
    rw [Subsingleton.elim j 0]
    exact h

/-- The state `|0...0> (|0> - |1>)` (unnormalised), reached before the oracle
is applied in both the Bernstein-Vazirani and Deutsch-Jozsa templates after
the input Hadamard layer; its amplitude depends only on the ancilla bit. -/
def minusState (n : ℕ) : QState n 1 :=
  fun p => if p.2 0 then -1 else 1

theorem prep_dj (x : Fin n → Bool) (y : Fin 1 → Bool) :
    applyGates (hLayer n ++ [Gate.x n, Gate.h n])
        (basisState ((zeroV n, zeroV 1) : QPoint n 1)) (x, y)
      = minusState n (x, y) := by
  rw [applyGates_append]
  have hw0 : ∀ (u : Fin n → Bool) (y' : Fin 1 → Bool),
      applyGates (hLayer n) (basisState ((zeroV n, zeroV 1) : QPoint n 1)) (u, y')
        = if y' = zeroV 1 then 1 else 0 := by
    intro u y'
    rw [hLayer_apply_full]
    by_cases hy : y' = zeroV 1
    · subst hy
      have hb : ∀ w : Fin n → Bool,
          basisState ((zeroV n, zeroV 1) : QPoint n 1) (w, zeroV 1)
            = if w = zeroV n then 1 else 0 := by
        intro w
        simp [basisState, Prod.mk.injEq]
      rw [Finset.sum_congr rfl (fun w _ => by rw [hb w]),
        sum_ite_weight (fun w => chi (dot2 w u)) (zeroV n), dot2_zero_left]
      simp [chi]
    · have hb : ∀ w : Fin n → Bool,
          basisState ((zeroV n, zeroV 1) : QPoint n 1) (w, y') = 0 := by
        intro w
        simp [basisState, Prod.mk.injEq, hy]
      rw [Finset.sum_congr rfl (fun w _ => by rw [hb w])]
      simp [hy]
  show applyGate (Gate.h n) (applyGate (Gate.x n) _) (x, y) = _
  have hw1 : ∀ (u : Fin n → Bool) (y' : Fin 1 → Bool),
      applyGates (hLayer n) (basisState ((zeroV n, zeroV 1) : QPoint n 1))
          (flipB n (u, y'))
        = if y' 0 = true then 1 else 0 := by
    intro u y'
    rw [flipB_anc, hw0]
    have hy : ((fun j => !(y' j)) = zeroV 1) ↔ (y' 0 = true) := by
      rw [fin1_eq_iff]
      simp [zeroV]
    by_cases hy0 : y' 0 = true
    · simp [hy.mpr hy0, hy0]
    · have : ¬ ((fun j => !(y' j)) = zeroV 1) := fun hc => hy0 (hy.mp hc)
      simp [this, hy0]
  simp only [applyGate]
  rw [setB_anc, setB_anc, getB_anc, hw1 x (fun _ => false), hw1 x (fun _ => true)]
  simp [minusState]

/-! ### Hadamard counts of the circuits -/

theorem hCount_append (l1 l2 : List Gate) :
    hCount (l1 ++ l2) = hCount l1 + hCount l2 := by
  unfold hCount
  rw [List.countP_append]

theorem hCount_hLayer (j : ℕ) : hCount (hLayer j) = j := by
  unfold hCount hLayer
  rw [List.countP_map]
  have : ∀ q ∈ List.range j, (Gate.isH ∘ Gate.h) q = true := by
    intro q _
    rfl
  rw [List.countP_eq_length.mpr this, List.length_range]

theorem hCount_perm_zero {gs : List Gate} (hp : ∀ g ∈ gs, Gate.isPerm g) :
    hCount gs = 0 := by
  unfold hCount
  rw [List.countP_eq_zero]
  intro g hg
  have := hp g hg
  cases g with
  | h q => exact absurd this (by simp [Gate.isPerm])
  | x q => simp [Gate.isH]
  | cx c t => simp [Gate.isH]
  | swap a b => simp [Gate.isH]

theorem hCount_pair : hCount [Gate.x n, Gate.h n] = 1 := rfl

theorem hCount_dj (o : DJKind n) : hCount (dj_circuit o) = 2 * n + 1 := by
  unfold dj_circuit
  rw [hCount_append, hCount_append, hCount_append, hCount_hLayer,
    hCount_pair, hCount_perm_zero (dj_oracle_gates_perm o)]
  omega

theorem hCount_simon (s : Fin n → Bool) (draws : List (ℕ × ℕ)) :
    hCount (simon_circuit s draws) = 2 * n := by
  unfold simon_circuit
  rw [hCount_append, hCount_append, hCount_hLayer,
    hCount_perm_zero (simon_oracle_gates_perm s draws)]
  omega

/-! ### The Bernstein-Vazirani template of the source

`bv_algorithm` Hadamards the output qubit inside both input loops
(`qc.h(n)` where the surrounding comments announce Hadamards on the first
`n` qubits).  Every gate of the resulting circuit — including every gate of
an oracle of the documented CX-from-input-to-output shape — touches the
input register at most as a control, so from `|0...0>|0>` the first
register never leaves the all-zero basis state and the measured outcome is
the all-zero string with probability `1`, whatever `s` the oracle encodes. -/

/-- The gate shapes occurring in `bv_algorithm og n` when `og` consists of
CX gates from input qubits to the output qubit `n`. -/
def ancShape (m : ℕ) (g : Gate) : Prop :=
  g = Gate.x m ∨ g = Gate.h m ∨ ∃ c, c < m ∧ g = Gate.cx c m

theorem ancShape_valid {g : Gate} (hg : ancShape n g) : Gate.valid (n + 1) g := by
  rcases hg with rfl | rfl | ⟨c, hc, rfl⟩
  · exact Nat.lt_succ_self n
  · exact Nat.lt_succ_self n
  · exact ⟨by omega, Nat.lt_succ_self n, by omega⟩

/-- A gate of `ancShape` reads the first register only through CX controls:
it maps states vanishing outside first-register value `0...0` to states
vanishing there again. -/
theorem ancShape_apply {g : Gate} (hg : ancShape n g) (v : QState n 1)
    (hv : ∀ p : QPoint n 1, p.1 ≠ zeroV n → v p = 0) :
    ∀ p : QPoint n 1, p.1 ≠ zeroV n → applyGate g v p = 0 := by
  rintro ⟨x, y⟩ hp
  rcases hg with rfl | rfl | ⟨c, hc, rfl⟩
  · show v (flipB n (x, y)) = 0
    rw [flipB_anc]
    exact hv _ hp
  · show v (setB (x, y) n false)
        + (if getB (x, y) n then -1 else 1) * v (setB (x, y) n true) = 0
    rw [setB_anc, setB_anc, hv (x, fun _ => false) hp, hv (x, fun _ => true) hp]
    ring
  · show (if getB (x, y) c then v (flipB n (x, y)) else v (x, y)) = 0
    rw [flipB_anc]
    by_cases hb : getB (x, y) c
    · rw [if_pos hb]
      exact hv _ hp
    · rw [if_neg hb]
      exact hv _ hp

theorem ancShape_applyGates {gs : List Gate} (hgs : ∀ g ∈ gs, ancShape n g)
    (v : QState n 1) (hv : ∀ p : QPoint n 1, p.1 ≠ zeroV n → v p = 0) :
    ∀ p : QPoint n 1, p.1 ≠ zeroV n → applyGates gs v p = 0 := by
  induction gs generalizing v with
  | nil =>
      intro p hp
      rw [applyGates_nil]
      exact hv p hp
  | cons g t ih =>
      intro p hp
      rw [applyGates_cons]
      exact ih (fun g' hg' => hgs g' (List.mem_cons_of_mem _ hg'))
        (applyGate g v)
        (ancShape_apply (hgs g (List.mem_cons_self g t)) v hv) p hp

theorem bv_algorithm_shape (og : List Gate) (m : ℕ)
    (hog : ∀ g ∈ og, ∃ c, c < m ∧ g = Gate.cx c m) :
    ∀ g ∈ bv_algorithm og m, ancShape m g := by
  intro g hg
  unfold bv_algorithm at hg
  simp only [List.mem_append, List.mem_cons, List.mem_map, List.mem_range,
    List.not_mem_nil, or_false] at hg
  unfold ancShape
  rcases hg with (((hg | hg) | ⟨q, _, hg⟩) | hg) | ⟨q, _, hg⟩
  · exact Or.inl hg
  · exact Or.inr (Or.inl hg)
  · exact Or.inr (Or.inl hg.symm)
  · exact Or.inr (Or.inr (hog g hg))
  · exact Or.inr (Or.inl hg.symm)

theorem bv_algorithm_valid (og : List Gate) (m : ℕ)
    (hog : ∀ g ∈ og, ∃ c, c < m ∧ g = Gate.cx c m) :
    ∀ g ∈ bv_algorithm og m, Gate.valid (m + 1) g :=
  fun g hg => ancShape_valid (bv_algorithm_shape og m hog g hg)

/-- Outcome distribution of the source's Bernstein-Vazirani template, run
with any oracle made of CX gates from input qubits to the output qubit:
the all-zero string is measured with probability `1` and every other
string with probability `0`. -/
theorem bv_real_outcome (og : List Gate) (m : ℕ)
    (hog : ∀ g ∈ og, ∃ c, c < m ∧ g = Gate.cx c m) :
    outcomeProb (bv_algorithm og m) ((zeroV m, zeroV 1) : QPoint m 1) (zeroV m) = 1
      ∧ ∀ z : Fin m → Bool, z ≠ zeroV m →
          outcomeProb (bv_algorithm og m) ((zeroV m, zeroV 1) : QPoint m 1) z = 0 := by
  have hsupp : ∀ p : QPoint m 1, p.1 ≠ zeroV m →
      applyGates (bv_algorithm og m)
        (basisState ((zeroV m, zeroV 1) : QPoint m 1)) p = 0 := by
    apply ancShape_applyGates (bv_algorithm_shape og m hog)
    rintro ⟨x, y⟩ hp
    have hne : ((x, y) : QPoint m 1) ≠ (zeroV m, zeroV 1) := by
      intro hc
      exact hp (congrArg Prod.fst hc)
    simp [basisState, hne]
  constructor
  · unfold outcomeProb
    have hnorm : norm2 (applyGates (bv_algorithm og m)
          (basisState ((zeroV m, zeroV 1) : QPoint m 1)))
        = 2 ^ hCount (bv_algorithm og m) := by
      rw [norm2_applyGates (bv_algorithm_valid og m hog), norm2_basisState, mul_one]
    have hsplit : norm2 (applyGates (bv_algorithm og m)
          (basisState ((zeroV m, zeroV 1) : QPoint m 1)))
        = ∑ y : Fin 1 → Bool,
            (applyGates (bv_algorithm og m)
              (basisState ((zeroV m, zeroV 1) : QPoint m 1)) (zeroV m, y)) ^ 2 := by
      unfold norm2
      rw [Fintype.sum_prod_type]
      refine Finset.sum_eq_single (zeroV m) ?_ ?_
      · intro x _ hx
        refine Finset.sum_eq_zero (fun y _ => ?_)
        rw [hsupp (x, y) hx]
        ring
      · intro hmem
        exact absurd (Finset.mem_univ _) hmem
    rw [← hsplit, hnorm]
    push_cast
    exact div_self (by positivity)
  · intro z hz
    unfold outcomeProb
    rw [Finset.sum_eq_zero (fun y _ => by rw [hsupp (z, y) hz]; ring)]
    simp

/-! ### Outcome distributions -/

theorem sum_fin1_sq (A : ℤ) :
    ∑ y : Fin 1 → Bool, ((if y 0 then (-1 : ℤ) else 1) * A) ^ 2 = 2 * A ^ 2 := by
  have h : ∀ y : Fin 1 → Bool, ((if y 0 then (-1 : ℤ) else 1) * A) ^ 2 = A ^ 2 := by
    intro y
    by_cases hy : y 0 <;> simp [hy]
  rw [Finset.sum_congr rfl (fun y _ => h y), Finset.sum_const, Finset.card_univ,
    Fintype.card_fun, Fintype.card_bool, Fintype.card_fin, pow_one]
  rw [nsmul_eq_mul]
  push_cast
  ring

theorem pow_two_cast_q (m : ℕ) : ((2 ^ m : ℤ) : ℚ) = 2 ^ m := by
  push_cast
  rfl

/-- Final amplitudes of the Deutsch-Jozsa circuit with a constant oracle:
concentrated on the all-zero outcome. -/
theorem dj_final_amp_constant (b : Bool) (z : Fin n → Bool) (y : Fin 1 → Bool) :
    applyGates (dj_circuit ((DJKind.constant b : DJKind n))) (basisState ((zeroV n, zeroV 1) : QPoint n 1)) (z, y)
      = (if b then -1 else 1) * ((if y 0 then -1 else 1) *
          (if z = zeroV n then (2 ^ n : ℤ) else 0)) := by
  unfold dj_circuit
  rw [applyGates_append, hLayer_apply_full]
  have hmid : ∀ u : Fin n → Bool,
      applyGates ((hLayer n ++ [Gate.x n, Gate.h n]) ++ get_oracle ((DJKind.constant b : DJKind n)))
          (basisState ((zeroV n, zeroV 1) : QPoint n 1)) (u, y)
        = (if b then (-1 : ℤ) else 1) * (if y 0 then (-1 : ℤ) else 1) := by
    intro u
    cases b with
    | false =>
        show applyGates ((hLayer n ++ [Gate.x n, Gate.h n]) ++ []) _ (u, y) = _
        rw [List.append_nil, prep_dj]
        simp [minusState]
    | true =>
        show applyGates ((hLayer n ++ [Gate.x n, Gate.h n]) ++ [Gate.x n]) _ (u, y) = _
        rw [applyGates_append]
        show applyGates (hLayer n ++ [Gate.x n, Gate.h n]) _ (flipB n (u, y)) = _
        rw [flipB_anc, prep_dj]
        simp only [minusState]
        by_cases hy : y 0 <;> simp [hy]
  rw [Finset.sum_congr rfl (fun u _ => by rw [hmid u])]
  have hre : ∀ u : Fin n → Bool,
      chi (dot2 u z) * ((if b then (-1 : ℤ) else 1) * (if y 0 then (-1 : ℤ) else 1))
        = ((if b then (-1 : ℤ) else 1) * (if y 0 then (-1 : ℤ) else 1)) * chi (dot2 u z) := by
    intro u
    ring
  rw [Finset.sum_congr rfl (fun u _ => hre u), ← Finset.mul_sum]
  have hsum : ∑ u : Fin n → Bool, chi (dot2 u z)
      = if z = zeroV n then (2 ^ n : ℤ) else 0 := by
    have hch : ∀ u : Fin n → Bool, chi (dot2 u z) = chi (dot2 u (xorF z (zeroV n))) := by
      intro u
      rw [xorF_zero_right]
    rw [Finset.sum_congr rfl (fun u _ => hch u), sum_chi_dot]
    by_cases hz : z = zeroV n
    · rw [if_pos (by rw [hz, xorF_zero_right]), if_pos hz]
    · rw [if_neg (by rw [xorF_zero_right]; exact hz), if_neg hz]
  rw [hsum]
  ring

/-- Final amplitudes of the Deutsch-Jozsa circuit with a balanced oracle:
concentrated on the all-ones outcome. -/
theorem dj_final_amp_balanced (bv : Fin n → Bool) (z : Fin n → Bool) (y : Fin 1 → Bool) :
    applyGates (dj_circuit (DJKind.balanced bv)) (basisState ((zeroV n, zeroV 1) : QPoint n 1)) (z, y)
      = chi (par2 bv) * ((if y 0 then -1 else 1) *
          (if z = onesV n then (2 ^ n : ℤ) else 0)) := by
  unfold dj_circuit
  rw [applyGates_append, hLayer_apply_full]
  have hmid : ∀ u : Fin n → Bool,
      applyGates ((hLayer n ++ [Gate.x n, Gate.h n]) ++ get_oracle (DJKind.balanced bv))
          (basisState ((zeroV n, zeroV 1) : QPoint n 1)) (u, y)
        = (if y 0 then (-1 : ℤ) else 1) * (chi (par2 u) * chi (par2 bv)) := by
    intro u
    rw [applyGates_append, applyGates_perm (dj_oracle_gates_perm (DJKind.balanced bv))]
    show applyGates (hLayer n ++ [Gate.x n, Gate.h n]) _
      (idxMap (get_oracle (DJKind.balanced bv)) (u, y)) = _
    rw [idxMap_dj_balanced bv u y, prep_dj]
    simp only [minusState, condFlip]
    have h2 : (if xor (y 0) (parBool (xorF u bv)) then (-1 : ℤ) else 1)
        = (if y 0 then (-1 : ℤ) else 1) * (if parBool (xorF u bv) then (-1 : ℤ) else 1) := by
      cases hy : y 0 <;> cases hp : parBool (xorF u bv) <;> simp
    rw [h2]
    congr 1
    rw [← chi_bitZ, bitZ_parBool, par2_xor, chi_add]
  rw [Finset.sum_congr rfl (fun u _ => by rw [hmid u])]
  have hre : ∀ u : Fin n → Bool,
      chi (dot2 u z) * ((if y 0 then (-1 : ℤ) else 1) * (chi (par2 u) * chi (par2 bv)))
        = (chi (par2 bv) * (if y 0 then (-1 : ℤ) else 1)) * (chi (dot2 u z) * chi (par2 u)) := by
    intro u
    ring
  rw [Finset.sum_congr rfl (fun u _ => hre u), ← Finset.mul_sum]
  have hsum : ∑ u : Fin n → Bool, chi (dot2 u z) * chi (par2 u)
      = if z = onesV n then (2 ^ n : ℤ) else 0 := by
    have hch : ∀ u : Fin n → Bool,
        chi (dot2 u z) * chi (par2 u) = chi (dot2 u (xorF z (onesV n))) := by
      intro u
      rw [← dot2_ones_right, ← chi_add, ← dot2_xor_right]
    rw [Finset.sum_congr rfl (fun u _ => hch u), sum_chi_dot]
    by_cases hz : z = onesV n
    · rw [if_pos (by rw [hz, xorF_self]), if_pos hz]
    · rw [if_neg (fun hc => hz ((xorF_eq_zero_iff z (onesV n)).mp hc)), if_neg hz]
  rw [hsum]
  ring

/-- Outcome distribution of the Deutsch-Jozsa circuit, constant case: the
all-zero string with probability `1`. -/
theorem dj_outcome_constant (b : Bool) (z : Fin n → Bool) :
    outcomeProb (dj_circuit ((DJKind.constant b : DJKind n))) ((zeroV n, zeroV 1) : QPoint n 1) z
      = if z = zeroV n then 1 else 0 := by
  unfold outcomeProb
  have hsq : ∀ y : Fin 1 → Bool,
      (applyGates (dj_circuit ((DJKind.constant b : DJKind n)))
          (basisState ((zeroV n, zeroV 1) : QPoint n 1)) (z, y)) ^ 2
        = ((if y 0 then (-1 : ℤ) else 1) * (if z = zeroV n then (2 ^ n : ℤ) else 0)) ^ 2 := by
    intro y
    rw [dj_final_amp_constant b z y]
    cases b
    · simp
    · simp only [if_pos]
      ring
  rw [Finset.sum_congr rfl (fun y _ => hsq y), sum_fin1_sq, hCount_dj]
  by_cases hz : z = zeroV n
  · rw [if_pos hz, if_pos hz]
    have hne : ((2 : ℚ) ^ (2 * n + 1)) ≠ 0 := by positivity
    rw [div_eq_one_iff_eq hne]
    push_cast
    rw [← pow_mul]
    rw [pow_succ]
    ring_nf
  · rw [if_neg hz, if_neg hz]
    norm_num

/-- Outcome distribution of the Deutsch-Jozsa circuit, balanced case: the
all-ones string with probability `1`. -/
theorem dj_outcome_balanced (bv : Fin n → Bool) (z : Fin n → Bool) :
    outcomeProb (dj_circuit (DJKind.balanced bv)) ((zeroV n, zeroV 1) : QPoint n 1) z
      = if z = onesV n then 1 else 0 := by
  unfold outcomeProb
  have hsq : ∀ y : Fin 1 → Bool,
      (applyGates (dj_circuit (DJKind.balanced bv))
          (basisState ((zeroV n, zeroV 1) : QPoint n 1)) (z, y)) ^ 2
        = ((if y 0 then (-1 : ℤ) else 1) * (if z = onesV n then (2 ^ n : ℤ) else 0)) ^ 2 := by
    intro y
    rw [dj_final_amp_balanced bv z y]
    have hc : chi (par2 bv) = 1 ∨ chi (par2 bv) = -1 := by
      unfold chi
      by_cases h : par2 bv = 0
      · exact Or.inl (by rw [if_pos h])
      · exact Or.inr (by rw [if_neg h])
    rcases hc with hc | hc <;> rw [hc] <;> ring
  rw [Finset.sum_congr rfl (fun y _ => hsq y), sum_fin1_sq, hCount_dj]
  by_cases hz : z = onesV n
  · rw [if_pos hz, if_pos hz]
    have hne : ((2 : ℚ) ^ (2 * n + 1)) ≠ 0 := by positivity
    rw [div_eq_one_iff_eq hne]
    push_cast
    rw [← pow_mul]
    rw [pow_succ]
    ring_nf
  · rw [if_neg hz, if_neg hz]
    norm_num

/-! ### The Simon circuit -/

/-- The input Hadamard layer on `|0...0>|0...0>` gives the uniform
superposition of the first register, output register still zero. -/
theorem hLayer_on_zero (u : Fin n → Bool) (y : Fin k → Bool) :
    applyGates (hLayer n) (basisState ((zeroV n, zeroV k) : QPoint n k)) (u, y)
      = if y = zeroV k then 1 else 0 := by
  rw [hLayer_apply_full]
  by_cases hy : y = zeroV k
  · subst hy
    have hb : ∀ w : Fin n → Bool,
        basisState ((zeroV n, zeroV k) : QPoint n k) (w, zeroV k)
          = if w = zeroV n then 1 else 0 := by
      intro w
      simp [basisState, Prod.mk.injEq]
    rw [Finset.sum_congr rfl (fun w _ => by rw [hb w]),
      sum_ite_weight (fun w => chi (dot2 w u)) (zeroV n), dot2_zero_left]
    simp [chi]
  · have hb : ∀ w : Fin n → Bool,
        basisState ((zeroV n, zeroV k) : QPoint n k) (w, y) = 0 := by
      intro w
      simp [basisState, Prod.mk.injEq, hy]
    rw [Finset.sum_congr rfl (fun w _ => by rw [hb w])]
    simp [hy]

/-- Final amplitudes of the Simon circuit: the amplitude at `(z, w)` is the
character sum over the preimage `{u | maskF s u = permOf draws w}`. -/
theorem simon_final_amp (s : Fin n → Bool) (draws : List (ℕ × ℕ))
    (hd : DrawsValid n draws) (z w : Fin n → Bool) :
    applyGates (simon_circuit s draws) (basisState ((zeroV n, zeroV n) : QPoint n n)) (z, w)
      = ∑ u : Fin n → Bool,
          chi (dot2 u z) * (if maskF s u = permOf n draws w then 1 else 0) := by
  unfold simon_circuit
  rw [applyGates_append, hLayer_apply_full]
  refine Finset.sum_congr rfl (fun u _ => ?_)
  congr 1
  rw [applyGates_append, applyGates_perm (simon_oracle_gates_perm s draws)]
  show applyGates (hLayer n) _ (idxMap (simon_oracle s draws) (u, w)) = _
  rw [idxMap_simon_oracle s draws hd u w, hLayer_on_zero]
  by_cases h : maskF s u = permOf n draws w
  · rw [if_pos h, if_pos (by rw [← h, xorF_self])]
  · have h2 : ¬ (xorF (permOf n draws w) (maskF s u) = zeroV n) := by
      intro hc
      exact h ((xorF_eq_zero_iff _ _).mp hc).symm
    rw [if_neg h2, if_neg h]

/-- Any outcome `z` of the Simon circuit carrying nonzero probability is
orthogonal to `s` over GF(2) (qubit-wise pairing): if `z . s = 1` the
amplitude at `z` vanishes for every output-register value. -/
theorem simon_outcome_orthogonal (s : Fin n → Bool) (draws : List (ℕ × ℕ))
    (hd : DrawsValid n draws) (z : Fin n → Bool) (hdot : dot2 z s ≠ 0) :
    outcomeProb (simon_circuit s draws) ((zeroV n, zeroV n) : QPoint n n) z = 0 := by
  have h1 : dot2 z s = 1 := by
    have hall : ∀ c : ZMod 2, c ≠ 0 → c = 1 := by decide
    exact hall _ hdot
  unfold outcomeProb
  have hamp : ∀ w : Fin n → Bool,
      applyGates (simon_circuit s draws)
        (basisState ((zeroV n, zeroV n) : QPoint n n)) (z, w) = 0 := by
    intro w
    rw [simon_final_amp s draws hd z w]
    refine Finset.sum_involution (fun u _ => xorF u s) ?_ ?_
      (fun u hu => Finset.mem_univ _) ?_
    · intro u hu
      dsimp only
      rw [maskF_xor_s s u]
      have hdz : dot2 (xorF u s) z = dot2 u z + 1 := by
        rw [dot2_comm, dot2_xor_right, dot2_comm z u, h1]
      rw [hdz, chi_add]
      have hch1 : chi 1 = -1 := by decide
      rw [hch1]
      ring
    · intro u hu hne hc
      dsimp only at hc
      have hs : s = zeroV n := by
        funext j
        have hsj := congrFun hc j
        simp only [xorF] at hsj
        show s j = zeroV n j
        simp only [zeroV]
        revert hsj
        cases u j <;> cases s j <;> decide
      rw [hs, dot2_zero_right] at h1
      exact absurd h1 (by decide)
    · intro u hu
      dsimp only
      rw [xorF_cancel_right]
  rw [Finset.sum_congr rfl (fun w _ => by rw [hamp w])]
  simp

/-! ### Measurement string conventions -/

/-- The key under which an outcome appears in Qiskit's count table: classical
bit `q` holds qubit `q`'s result (`qc.measure(q, q)`), and `get_counts`
prints classical bit `0` as the rightmost character, so the character at
string position `j` (from the left) is the value of qubit `n - 1 - j`. -/
def countsKey (z : Fin n → Bool) : List Bool :=
  (List.finRange n).reverse.map z

/-- The hidden string `s` as a list: character `i` (from the left) drives the
CX on qubit `i` (`if s[i] == "1": qc.cx(i, n + i)`). -/
def qubitList (s : Fin n → Bool) : List Bool :=
  (List.finRange n).map s

/-! ### Classical recovery for Simon's algorithm (modelled from the spec) -/

/-- XOR of a collection of GF(2) vectors. -/
def xorAll (l : List (Fin n → Bool)) : Fin n → Bool :=
  l.foldr xorF (zeroV n)

/-- GF(2) linear independence of a collection: no nonempty subcollection
XORs to zero.  (Over GF(2) this is exactly linear independence of the
multiset; in particular, it excludes the zero vector and duplicates.) -/
def LinIndep (l : List (Fin n → Bool)) : Prop :=
  ∀ t ∈ l.sublists, t ≠ [] → xorAll t ≠ zeroV n

instance (l : List (Fin n → Bool)) : Decidable (LinIndep l) := by
  unfold LinIndep
  infer_instance

/-- The largest cardinality of a linearly independent subcollection of the
collected run outcomes (computed by brute force over all sublists). -/
def maxIndepCard (zs : List (Fin n → Bool)) : ℕ :=
  ((zs.sublists.filter (fun t => decide (LinIndep t))).map List.length).foldr max 0

/-- Error raised by Simon classical recovery when the collected equations do
not determine the hidden string. -/
inductive SimonError where
  | insufficientRank
deriving DecidableEq, Repr

/-- A number `0 ≤ m < 2^n` read as a bit vector. -/
def natToVec (n m : ℕ) : Fin n → Bool := fun i => m.testBit i.val

/-- Modelled from the spec: the repository contains no Simon classical
recovery code under `src/` (the notebook only prints `bdotz` values), so
`simon_recover` is modelled from the specification: determine whether the
collected outcomes contain `n - 1` linearly independent equations; if not,
fail with `InsufficientRankError`; otherwise solve the homogeneous GF(2)
system for a nontrivial solution, enumerating candidates by brute force. -/
def simon_recover (n : ℕ) (zs : List (Fin n → Bool)) :
    Except SimonError (Fin n → Bool) :=
  if maxIndepCard zs < n - 1 then
    Except.error SimonError.insufficientRank
  else
    match (List.range (2 ^ n)).find?
        (fun m => decide (natToVec n m ≠ zeroV n ∧ ∀ z ∈ zs, dot2 z (natToVec n m) = 0)) with
    | some m => Except.ok (natToVec n m)
    | none => Except.error SimonError.insufficientRank

theorem linIndep_nil : LinIndep ([] : List (Fin n → Bool)) := by
  intro t ht hne
  rw [List.sublists_nil, List.mem_singleton] at ht
  exact absurd ht hne

theorem foldr_max_lt {L : List ℕ} {m : ℕ} (h0 : 0 < m) (h : ∀ a ∈ L, a < m) :
    L.foldr max 0 < m := by
  induction L with
  | nil => exact h0
  | cons a t ih =>
      rw [List.foldr_cons]
      have ha : a < m := h a (List.mem_cons_self a t)
      have ht : t.foldr max 0 < m := ih (fun b hb => h b (List.mem_cons_of_mem _ hb))
      omega

theorem maxIndepCard_lt (zs : List (Fin n → Bool)) {m : ℕ}
    (h0 : 0 < m) (h : ∀ t ∈ zs.sublists, LinIndep t → t.length < m) :
    maxIndepCard zs < m := by
  unfold maxIndepCard
  refine foldr_max_lt h0 ?_
  intro a ha
  rw [List.mem_map] at ha
  obtain ⟨t, ht, rfl⟩ := ha
  rw [List.mem_filter] at ht
  exact h t ht.1 (of_decide_eq_true ht.2)

/-! ### Counting balanced outputs -/

theorem par2_update (u : Fin n → Bool) (i : Fin n) :
    par2 (Function.update u i (!u i)) = par2 u + 1 := by
  rw [← dot2_ones_right, dot2_update, dot2_ones_right]
  simp [onesV, bitZ]

theorem parBool_update (x : Fin n → Bool) (i : Fin n) :
    parBool (Function.update x i (!x i)) = !(parBool x) := by
  apply bitZ_injective
  rw [bitZ_parBool, par2_update, ← bitZ_parBool]
  cases parBool x <;> decide

/-- Any Boolean function of the form `parity(x) XOR c` takes the value `true`
on exactly half of the `2^n` inputs (for `n ≥ 1`). -/
theorem card_parity_class (hn : 1 ≤ n) (c : Bool) :
    (Finset.univ.filter (fun x : Fin n → Bool => xor (parBool x) c = true)).card
      = 2 ^ (n - 1) := by
  set i0 : Fin n := ⟨0, by omega⟩ with hi0
  set A := Finset.univ.filter (fun x : Fin n → Bool => xor (parBool x) c = true) with hA
  set B := Finset.univ.filter
    (fun x : Fin n → Bool => ¬ (xor (parBool x) c = true)) with hB
  have hflip_mem : ∀ x : Fin n → Bool,
      xor (parBool (Function.update x i0 (!x i0))) c = !(xor (parBool x) c) := by
    intro x
    rw [parBool_update]
    cases parBool x <;> cases c <;> decide
  have hAB : A.card = B.card := by
    refine Finset.card_nbij' (fun x => Function.update x i0 (!x i0))
      (fun x => Function.update x i0 (!x i0)) ?_ ?_ ?_ ?_
    · intro x hx
      rw [hA, Finset.mem_filter] at hx
      rw [hB, Finset.mem_filter]
      refine ⟨Finset.mem_univ _, ?_⟩
      rw [hflip_mem x, hx.2]
      simp
    · intro x hx
      rw [hB, Finset.mem_filter] at hx
      rw [hA, Finset.mem_filter]
      refine ⟨Finset.mem_univ _, ?_⟩
      rw [hflip_mem x]
      have hf : xor (parBool x) c = false := by
        rcases Bool.eq_false_or_eq_true (xor (parBool x) c) with h | h
        · exact absurd h hx.2
        · exact h
      rw [hf]
      simp
    · intro x _
      dsimp only
      rw [Function.update_same, Function.update_idem, Bool.not_not,
        Function.update_eq_self]
    · intro x _
      dsimp only
      rw [Function.update_same, Function.update_idem, Bool.not_not,
        Function.update_eq_self]
  have hsum : A.card + B.card = 2 ^ n := by
    rw [hA, hB, Finset.filter_card_add_filter_neg_card_eq_card, Finset.card_univ,
      Fintype.card_fun, Fintype.card_bool, Fintype.card_fin]
  have h2 : 2 ^ n = 2 ^ (n - 1) * 2 := by
    rw [← pow_succ]
    congr 1
    omega
  omega

/-! ### Bridging `bdotz` with the GF(2) dot product -/

theorem qubitList_getD (s : Fin n → Bool) (i : ℕ) :
    (qubitList s).getD i false = if h : i < n then s ⟨i, h⟩ else false := by
  unfold qubitList
  by_cases h : i < n
  · rw [dif_pos h]
    rw [List.getD_eq_getElem _ _ (by simp [List.length_map, List.length_finRange, h])]
    rw [List.getElem_map, List.getElem_finRange]
    congr 1
  · rw [dif_neg h]
    rw [List.getD_eq_default _ _ (by simp [List.length_map, List.length_finRange]; omega)]

theorem qubitList_length (s : Fin n → Bool) : (qubitList s).length = n := by
  unfold qubitList
  rw [List.length_map, List.length_finRange]

theorem foldl_add_congr (f g : ℕ → ℕ) :
    ∀ (L : List ℕ), (∀ i ∈ L, f i = g i) → ∀ (a : ℕ),
      L.foldl (fun acc i => acc + f i) a = L.foldl (fun acc i => acc + g i) a := by
  intro L
  induction L with
  | nil =>
      intro _ a
      rfl
  | cons i t ih =>
      intro h a
      rw [List.foldl_cons, List.foldl_cons, h i (List.mem_cons_self i t)]
      exact ih (fun j hj => h j (List.mem_cons_of_mem _ hj)) _

theorem foldl_add_sum (g : ℕ → ℕ) (m : ℕ) :
    (List.range m).foldl (fun a i => a + g i) 0 = ∑ i ∈ Finset.range m, g i := by
  induction m with
  | zero => simp
  | succ m ih =>
      rw [List.range_succ, List.foldl_append, ih, Finset.sum_range_succ]
      rfl

/-- `bdotz` applied to the hidden string and an outcome, both written in
qubit order, is the mod-2 GF(2) dot product. -/
theorem bdotz_qubit_order (s z : Fin n → Bool) :
    bdotz (qubitList s) (qubitList z)
      = (∑ i : Fin n, (if s i && z i then 1 else 0)) % 2 := by
  unfold bdotz
  rw [qubitList_length]
  have hterm : ∀ i ∈ List.range n,
      (if (qubitList s).getD i false then 1 else 0) *
        (if (qubitList z).getD i false then 1 else 0)
      = (fun i => if h : i < n then (if s ⟨i, h⟩ && z ⟨i, h⟩ then 1 else 0) else 0) i := by
    intro i hi
    rw [List.mem_range] at hi
    rw [qubitList_getD, qubitList_getD, dif_pos hi, dif_pos hi]
    dsimp only
    rw [dif_pos hi]
    cases s ⟨i, hi⟩ <;> cases z ⟨i, hi⟩ <;> decide
  have hfold : (List.range n).foldl
      (fun acc i => acc + (if (qubitList s).getD i false then 1 else 0) *
        (if (qubitList z).getD i false then 1 else 0)) 0
      = (List.range n).foldl
        (fun acc i => acc +
          (fun i => if h : i < n then (if s ⟨i, h⟩ && z ⟨i, h⟩ then 1 else 0) else 0) i) 0 :=
    foldl_add_congr _ _ (List.range n) hterm 0
  rw [hfold, foldl_add_sum]
  congr 1
  rw [← Fin.sum_univ_eq_sum_range
    (fun i => if h : i < n then (if s ⟨i, h⟩ && z ⟨i, h⟩ then 1 else 0) else 0) n]
  refine Finset.sum_congr rfl (fun i _ => ?_)
  rw [dif_pos i.isLt]

theorem dot2_eq_zero_iff_bdotz (s z : Fin n → Bool) :
    dot2 s z = 0 ↔ bdotz (qubitList s) (qubitList z) = 0 := by
  rw [bdotz_qubit_order]
  have hcast : dot2 s z = ((∑ i : Fin n, (if s i && z i then 1 else 0) : ℕ) : ZMod 2) := by
    unfold dot2
    rw [Nat.cast_sum]
    refine Finset.sum_congr rfl (fun i _ => ?_)
    cases s i && z i <;> decide
  rw [hcast, ZMod.natCast_zmod_eq_zero_iff_dvd]
  omega

/-- Nonzero outcome probability is equivalent to a nonzero integer numerator
(the power-of-two denominator is positive), which is kernel-decidable. -/
theorem outcomeProb_ne_zero_iff (gs : List Gate) (p0 : QPoint n k) (z : Fin n → Bool) :
    outcomeProb gs p0 z ≠ 0
      ↔ (∑ y : Fin k → Bool, (applyGates gs (basisState p0) (z, y)) ^ 2) ≠ 0 := by
  unfold outcomeProb
  constructor
  · intro h hc
    apply h
    rw [hc]
    simp
  · intro h hc
    apply h
    rw [div_eq_zero_iff] at hc
    rcases hc with hc | hc
    · exact_mod_cast hc
    · exact absurd hc (by positivity)

instance (n : ℕ) (draws : List (ℕ × ℕ)) : Decidable (DrawsValid n draws) := by
  unfold DrawsValid
  infer_instance

instance (o : DJKind n) : Decidable (DJValid o) := by
  cases o <;> simp only [DJValid] <;> infer_instance

instance (o : DJKind n) : Decidable (DJIsConstant o) := by
  cases o <;> simp only [DJIsConstant] <;> infer_instance

/-! ## The claims -/

/-- C1: the claim says that building the oracle for `s` and running the
source's Bernstein-Vazirani template measures `s` with probability 1 in a
single shot.  The code refutes it twice over: `get_oracle` fails on every
nonempty `s` (its loop reads the undefined name `i`, raising `NameError`,
so `bv_get_oracle` returns `none` and no circuit can be built), and the
template `bv_algorithm` Hadamards the output qubit in both input loops, so
run with any oracle of the documented CX-from-input-to-output shape it
measures the all-zero string with probability 1 and any `z ≠ 0...0` — in
particular a nonzero `s` — with probability 0. -/
theorem claim_C1 (n : ℕ) (h1 : 1 ≤ n) (og : List Gate)
    (hog : ∀ g ∈ og, ∃ c, c < n ∧ g = Gate.cx c n) (s : List Bool) (hs : s ≠ []) :
    bv_get_oracle s = none
      ∧ outcomeProb (bv_algorithm og n) ((zeroV n, zeroV 1) : QPoint n 1) (zeroV n) = 1
      ∧ ∀ z : Fin n → Bool, z ≠ zeroV n →
          outcomeProb (bv_algorithm og n) ((zeroV n, zeroV 1) : QPoint n 1) z = 0 := by
  refine ⟨?_, (bv_real_outcome og n hog).1, (bv_real_outcome og n hog).2⟩
  unfold bv_get_oracle
  rw [if_neg (fun hc => hs (List.length_eq_zero.mp hc))]

theorem claim_C1_witness :
    (1 ≤ 3
        ∧ (∀ g ∈ [Gate.cx 0 3, Gate.cx 2 3], ∃ c, c < 3 ∧ g = Gate.cx c 3)
        ∧ ([true, false, true] : List Bool) ≠ [])
      ∧ (bv_get_oracle [true, false, true] = none
        ∧ outcomeProb (bv_algorithm [Gate.cx 0 3, Gate.cx 2 3] 3)
            ((zeroV 3, zeroV 1) : QPoint 3 1) (zeroV 3) = 1
        ∧ ∀ z : Fin 3 → Bool, z ≠ zeroV 3 →
            outcomeProb (bv_algorithm [Gate.cx 0 3, Gate.cx 2 3] 3)
              ((zeroV 3, zeroV 1) : QPoint 3 1) z = 0) := by
  have hog : ∀ g ∈ [Gate.cx 0 3, Gate.cx 2 3], ∃ c, c < 3 ∧ g = Gate.cx c 3 := by
    intro g hg
    simp only [List.mem_cons, List.not_mem_nil, or_false] at hg
    rcases hg with rfl | rfl
    · exact ⟨0, by omega, rfl⟩
    · exact ⟨2, by omega, rfl⟩
  exact ⟨⟨by decide, hog, by decide⟩,
    claim_C1 3 (by decide) [Gate.cx 0 3, Gate.cx 2 3] hog
      [true, false, true] (by decide)⟩

/-- C2 counterexample: for `s = "11"` (no swaps drawn), the Simon oracle of
the source maps `|x>|0>` to `|x>|f(x)>` with `f(00) = f(01)`, although
`01 ≠ 00` and `01 ≠ 00 XOR 11` — so `f` is not 2-to-1 with period `s`, and
the collision partners are not related by `s`, refuting the claim as stated. -/
theorem claim_C2_counterexample :
    applyGates (simon_oracle (onesV 2) []) (basisState ((zeroV 2, zeroV 2) : QPoint 2 2))
        = basisState (zeroV 2, f_simon (onesV 2) [] (zeroV 2))
      ∧ applyGates (simon_oracle (onesV 2) [])
            (basisState ((natToVec 2 1, zeroV 2) : QPoint 2 2))
          = basisState (natToVec 2 1, f_simon (onesV 2) [] (natToVec 2 1))
      ∧ f_simon (onesV 2) [] (zeroV 2) = f_simon (onesV 2) [] (natToVec 2 1)
      ∧ natToVec 2 1 ≠ zeroV 2
      ∧ natToVec 2 1 ≠ xorF (zeroV 2) (onesV 2) :=
  ⟨simon_oracle_on_basis (onesV 2) [] (by decide) (zeroV 2),
   simon_oracle_on_basis (onesV 2) [] (by decide) (natToVec 2 1),
   by decide, by decide, by decide⟩

/-- C2 amended: the Simon oracle maps every `|x>|0>` to `|x>|f(x)>`, and `f`
has period `s` (`f(x) = f(x XOR s)`) and is injective when `s` is zero; but
instead of being 2-to-1, its collisions are exactly the pairs agreeing on
every position where `s` is 0 (`f` is `2^w`-to-1, `w` the weight of `s`),
because the masking CX cancels the copy CX on each wire with `s[i] = 1`. -/
theorem claim_C2_amended (n : ℕ) (s : Fin n → Bool) (draws : List (ℕ × ℕ))
    (hd : DrawsValid n draws) (x : Fin n → Bool) :
    applyGates (simon_oracle s draws) (basisState ((x, zeroV n) : QPoint n n))
        = basisState (x, f_simon s draws x)
      ∧ f_simon s draws (xorF x s) = f_simon s draws x
      ∧ (∀ y : Fin n → Bool, f_simon s draws x = f_simon s draws y ↔ maskF s x = maskF s y)
      ∧ (s = zeroV n → ∀ y : Fin n → Bool, f_simon s draws x = f_simon s draws y → x = y) := by
  refine ⟨simon_oracle_on_basis s draws hd x, f_simon_period s draws x,
    fun y => f_simon_collision s draws x y, fun hs y hf => ?_⟩
  subst hs
  exact f_simon_injective_of_zero draws x y hf

theorem claim_C2_witness :
    DrawsValid 2 []
      ∧ (applyGates (simon_oracle (onesV 2) [])
            (basisState ((zeroV 2, zeroV 2) : QPoint 2 2))
          = basisState (zeroV 2, f_simon (onesV 2) [] (zeroV 2))
        ∧ f_simon (onesV 2) [] (xorF (zeroV 2) (onesV 2)) = f_simon (onesV 2) [] (zeroV 2)
        ∧ (∀ y : Fin 2 → Bool,
            f_simon (onesV 2) [] (zeroV 2) = f_simon (onesV 2) [] y
              ↔ maskF (onesV 2) (zeroV 2) = maskF (onesV 2) y)
        ∧ (onesV 2 = zeroV 2 → ∀ y : Fin 2 → Bool,
            f_simon (onesV 2) [] (zeroV 2) = f_simon (onesV 2) [] y → zeroV 2 = y)) :=
  ⟨by decide, claim_C2_amended 2 (onesV 2) [] (by decide) (zeroV 2)⟩

/-- C3: the claim says the Bernstein-Vazirani oracle builder returns a gate
sequence with a CX from input `i` to the output exactly where `s[i] = 1`,
mapping `|x>|y>` to `|x>|y XOR (s . x mod 2)>` and acting as the identity
for the all-zero string.  The code refutes it: after `rev_s = s[::-1]` its
loop branches on `rev_s[i]` with the name `i` undefined, so every call with
a nonempty `s` raises `NameError` and returns no gate sequence at all; only
the empty string skips the loop body and yields the empty circuit. -/
theorem claim_C3 (s : List Bool) (hs : s ≠ []) :
    bv_get_oracle s = none ∧ bv_get_oracle [] = some [] := by
  constructor
  · unfold bv_get_oracle
    rw [if_neg (fun hc => hs (List.length_eq_zero.mp hc))]
  · rfl

theorem claim_C3_witness :
    ([true, false] : List Bool) ≠ []
      ∧ (bv_get_oracle [true, false] = none ∧ bv_get_oracle [] = some []) :=
  ⟨by decide, claim_C3 [true, false] (by decide)⟩

/-- C4: every instance produced by the balanced branch of the Deutsch-Jozsa
`get_oracle` (key pattern `bv` nonzero, as the draw `b` from 1 to `2^n - 1`
guarantees) computes a Boolean function on the output qubit — the parity of
the input XOR the parity of the key — that takes value 1 on exactly
`2^(n-1)` of the `2^n` basis inputs, exactly, for every instance. -/
theorem claim_C4 (n : ℕ) (hn : 1 ≤ n) (bv : Fin n → Bool) (hbv : bv ≠ zeroV n) :
    (∀ (x : Fin n → Bool) (y : Fin 1 → Bool),
        applyGates (get_oracle (DJKind.balanced bv))
            (basisState ((x, y) : QPoint n 1))
          = basisState (x, condFlip y (xor (parBool x) (parBool bv))))
      ∧ (Finset.univ.filter
          (fun x : Fin n → Bool => xor (parBool x) (parBool bv) = true)).card
        = 2 ^ (n - 1) := by
  refine ⟨fun x y => ?_, card_parity_class hn (parBool bv)⟩
  rw [dj_balanced_on_basis bv x y, parBool_xor]

theorem claim_C4_witness :
    (1 ≤ 2 ∧ onesV 2 ≠ zeroV 2)
      ∧ ((∀ (x : Fin 2 → Bool) (y : Fin 1 → Bool),
          applyGates (get_oracle (DJKind.balanced (onesV 2)))
              (basisState ((x, y) : QPoint 2 1))
            = basisState (x, condFlip y (xor (parBool x) (parBool (onesV 2)))))
        ∧ (Finset.univ.filter
            (fun x : Fin 2 → Bool => xor (parBool x) (parBool (onesV 2)) = true)).card
          = 2 ^ (2 - 1)) :=
  ⟨⟨by decide, by decide⟩, claim_C4 2 (by decide) (onesV 2) (by decide)⟩

/-- C5: on every instance of the source's `dj_circuit` run on a `get_oracle`
gate (constant, or balanced with the guaranteed-nonzero key) the measured
input register is the all-zero string if and only if the oracle is constant,
with probability 1 in exact arithmetic: a constant oracle yields the
all-zero outcome with probability 1, while a balanced oracle gives the
all-zero outcome probability 0 and every outcome of nonzero probability is
nonzero. -/
theorem claim_C5 (n : ℕ) (hn : 1 ≤ n) (o : DJKind n) (ho : DJValid o) :
    (DJIsConstant o →
        outcomeProb (dj_circuit o) ((zeroV n, zeroV 1) : QPoint n 1) (zeroV n) = 1)
      ∧ (¬ DJIsConstant o →
          outcomeProb (dj_circuit o) ((zeroV n, zeroV 1) : QPoint n 1) (zeroV n) = 0
            ∧ ∀ z : Fin n → Bool,
                outcomeProb (dj_circuit o) ((zeroV n, zeroV 1) : QPoint n 1) z ≠ 0
                  → z ≠ zeroV n) := by
  have hzo : zeroV n ≠ onesV n := by
    intro hc
    have h0 := congrFun hc ⟨0, by omega⟩
    simp [zeroV, onesV] at h0
  cases o with
  | constant b =>
      refine ⟨fun _ => ?_, fun hc => absurd trivial hc⟩
      rw [dj_outcome_constant, if_pos rfl]
  | balanced bv =>
      refine ⟨fun hc => absurd hc (by simp [DJIsConstant]), fun _ => ⟨?_, ?_⟩⟩
      · rw [dj_outcome_balanced, if_neg hzo]
      · intro z hz hzz
        subst hzz
        rw [dj_outcome_balanced, if_neg hzo] at hz
        exact hz rfl

theorem claim_C5_witness :
    (1 ≤ 2 ∧ DJValid (DJKind.balanced (onesV 2)))
      ∧ ((DJIsConstant (DJKind.balanced (onesV 2)) →
          outcomeProb (dj_circuit (DJKind.balanced (onesV 2)))
            ((zeroV 2, zeroV 1) : QPoint 2 1) (zeroV 2) = 1)
        ∧ (¬ DJIsConstant (DJKind.balanced (onesV 2)) →
            outcomeProb (dj_circuit (DJKind.balanced (onesV 2)))
                ((zeroV 2, zeroV 1) : QPoint 2 1) (zeroV 2) = 0
              ∧ ∀ z : Fin 2 → Bool,
                  outcomeProb (dj_circuit (DJKind.balanced (onesV 2)))
                      ((zeroV 2, zeroV 1) : QPoint 2 1) z ≠ 0
                    → z ≠ zeroV 2)) :=
  ⟨⟨by decide, by decide⟩, claim_C5 2 (by decide) (DJKind.balanced (onesV 2)) (by decide)⟩

/-- C6 counterexample: for `s = "10"` (`natToVec 2 1`, no swaps drawn), the
outcome whose counts key is the string `"10"` (`natToVec 2 2` in qubit order)
is obtainable with nonzero probability from one run of `simon_circuit`, yet
`bdotz` of the `s` string against that counts key — the positional pairing
the source's own check `bdotz(s, z)` performs on `get_counts` keys — is 1,
not 0. -/
theorem claim_C6_counterexample :
    DrawsValid 2 []
      ∧ outcomeProb (simon_circuit (natToVec 2 1) []) ((zeroV 2, zeroV 2) : QPoint 2 2)
          (natToVec 2 2) ≠ 0
      ∧ bdotz (qubitList (natToVec 2 1)) (countsKey (natToVec 2 2)) = 1 :=
  ⟨by decide,
   (outcomeProb_ne_zero_iff (simon_circuit (natToVec 2 1) [])
     ((zeroV 2, zeroV 2) : QPoint 2 2) (natToVec 2 2)).mpr (by decide),
   by decide⟩

/-- C6 amended: every outcome `z` of nonzero probability from one run of the
Simon circuit satisfies `z . s = 0 (mod 2)` when the dot product pairs the
outcome of qubit `i` with `s[i]` — equivalently, `bdotz` of the `s` string
against the REVERSED counts key vanishes.  (The unreversed counts-key pairing
of the source can be 1 because Qiskit prints classical bit 0 rightmost.) -/
theorem claim_C6_amended (n : ℕ) (s : Fin n → Bool) (draws : List (ℕ × ℕ))
    (hd : DrawsValid n draws) (z : Fin n → Bool)
    (hz : outcomeProb (simon_circuit s draws) ((zeroV n, zeroV n) : QPoint n n) z ≠ 0) :
    dot2 z s = 0 ∧ bdotz (qubitList s) ((countsKey z).reverse) = 0 := by
  have h1 : dot2 z s = 0 := by
    by_contra hc
    exact hz (simon_outcome_orthogonal s draws hd z hc)
  refine ⟨h1, ?_⟩
  have hrev : (countsKey z).reverse = qubitList z := by
    unfold countsKey qubitList
    rw [List.map_reverse, List.reverse_reverse]
  rw [hrev]
  exact (dot2_eq_zero_iff_bdotz s z).mp (by rw [dot2_comm]; exact h1)

theorem claim_C6_witness :
    (DrawsValid 2 []
      ∧ outcomeProb (simon_circuit (natToVec 2 1) []) ((zeroV 2, zeroV 2) : QPoint 2 2)
          (zeroV 2) ≠ 0)
      ∧ (dot2 (zeroV 2) (natToVec 2 1) = 0
        ∧ bdotz (qubitList (natToVec 2 1)) ((countsKey (zeroV 2)).reverse) = 0) :=
  ⟨⟨by decide,
    (outcomeProb_ne_zero_iff (simon_circuit (natToVec 2 1) [])
      ((zeroV 2, zeroV 2) : QPoint 2 2) (zeroV 2)).mpr (by decide)⟩,
   claim_C6_amended 2 (natToVec 2 1) [] (by decide) (zeroV 2)
     ((outcomeProb_ne_zero_iff (simon_circuit (natToVec 2 1) [])
       ((zeroV 2, zeroV 2) : QPoint 2 2) (zeroV 2)).mpr (by decide))⟩

/-- C7: the (spec-modelled) Simon classical recovery, given collected run
outcomes among which every linearly independent subcollection has fewer than
`n - 1` vectors, fails with `InsufficientRankError` instead of returning any
bit-string. -/
theorem claim_C7 (n : ℕ) (zs : List (Fin n → Bool))
    (h : ∀ t ∈ zs.sublists, LinIndep t → t.length < n - 1) :
    simon_recover n zs = Except.error SimonError.insufficientRank := by
  have h0 : 0 < n - 1 :=
    h [] (List.mem_sublists.mpr (List.nil_sublist zs)) linIndep_nil
  have hlt := maxIndepCard_lt zs h0 h
  unfold simon_recover
  rw [if_pos hlt]

theorem claim_C7_witness :
    (∀ t ∈ ([natToVec 3 1] : List (Fin 3 → Bool)).sublists, LinIndep t → t.length < 3 - 1)
      ∧ simon_recover 3 [natToVec 3 1] = Except.error SimonError.insufficientRank :=
  ⟨by decide, claim_C7 3 [natToVec 3 1] (by decide)⟩

/-- C8: applying any valid gate sequence to any initial basis state keeps the
total probability weight (sum of squared amplitude magnitudes, with the
`1/sqrt 2` Hadamard normalisation accounted for) exactly equal to 1 after
every individual gate application — in particular within the 1e-9 tolerance. -/
theorem claim_C8 (n k : ℕ) (gs : List Gate)
    (hv : ∀ g ∈ gs, Gate.valid (n + k) g) (p0 : QPoint n k) (j : ℕ) :
    probWeight (applyGates (gs.take j) (basisState p0)) (hCount (gs.take j)) = 1
      ∧ |probWeight (applyGates (gs.take j) (basisState p0)) (hCount (gs.take j)) - 1|
          ≤ 1 / 1000000000 := by
  have hvt : ∀ g ∈ gs.take j, Gate.valid (n + k) g :=
    fun g hg => hv g (List.take_subset j gs hg)
  have h1 : norm2 (applyGates (gs.take j) (basisState p0))
      = 2 ^ hCount (gs.take j) * norm2 (basisState p0) := norm2_applyGates hvt _
  rw [norm2_basisState, mul_one] at h1
  have heq : probWeight (applyGates (gs.take j) (basisState p0))
      (hCount (gs.take j)) = 1 := by
    unfold probWeight
    rw [h1]
    push_cast
    refine div_self ?_
    positivity
  refine ⟨heq, ?_⟩
  rw [heq]
  norm_num

theorem claim_C8_witness :
    (∀ g ∈ [Gate.h 0, Gate.cx 0 1, Gate.swap 0 1, Gate.x 1], Gate.valid (1 + 1) g)
      ∧ (probWeight (applyGates (([Gate.h 0, Gate.cx 0 1, Gate.swap 0 1, Gate.x 1]).take 3)
            (basisState ((zeroV 1, zeroV 1) : QPoint 1 1)))
          (hCount (([Gate.h 0, Gate.cx 0 1, Gate.swap 0 1, Gate.x 1]).take 3)) = 1
        ∧ |probWeight (applyGates (([Gate.h 0, Gate.cx 0 1, Gate.swap 0 1, Gate.x 1]).take 3)
              (basisState ((zeroV 1, zeroV 1) : QPoint 1 1)))
            (hCount (([Gate.h 0, Gate.cx 0 1, Gate.swap 0 1, Gate.x 1]).take 3)) - 1|
          ≤ 1 / 1000000000) :=
  ⟨by decide,
   claim_C8 1 1 [Gate.h 0, Gate.cx 0 1, Gate.swap 0 1, Gate.x 1] (by decide)
     ((zeroV 1, zeroV 1) : QPoint 1 1) 3⟩

/-- C10: for every nonzero key `bv` the balanced branch of the source's
`get_oracle` maps basis state `|x>|y>` to
`|x>|y XOR parity(x) XOR parity(bv)>`: the inputs are unchanged and the
balanced function is always the full input parity, complemented exactly when
`bv` has odd weight. -/
theorem claim_C10 (n : ℕ) (bv : Fin n → Bool) (hbv : bv ≠ zeroV n)
    (x : Fin n → Bool) (y : Fin 1 → Bool) :
    applyGates (get_oracle (DJKind.balanced bv)) (basisState ((x, y) : QPoint n 1))
      = basisState (x, condFlip y (xor (parBool x) (parBool bv))) := by
  rw [dj_balanced_on_basis bv x y, parBool_xor]

theorem claim_C10_witness :
    (natToVec 2 1 ≠ zeroV 2)
      ∧ applyGates (get_oracle (DJKind.balanced (natToVec 2 1)))
            (basisState ((onesV 2, zeroV 1) : QPoint 2 1))
          = basisState (onesV 2,
              condFlip (zeroV 1) (xor (parBool (onesV 2)) (parBool (natToVec 2 1)))) :=
  ⟨by decide, claim_C10 2 (natToVec 2 1) (by decide) (onesV 2) (zeroV 1)⟩
